import Mathlib

/-!
Verification of the shape-detection core in src/main.ts.

The pipeline is embedded shallowly: pixel buffers are lists of naturals,
JavaScript number arithmetic on integer-valued data is modelled by exact
integers and rationals, and the square roots of Math.hypot and Math.sqrt
are modelled by Real.sqrt. The processingTime field of DetectionResult is
wall-clock time and is not modelled.
-/

set_option maxHeartbeats 1000000
set_option maxRecDepth 100000

namespace ShapeDet

/-- A pixel coordinate pair, as produced by the flood fill over the grid. -/
structure Point where
  x : ℤ
  y : ℤ
deriving DecidableEq

/-- The five shape labels of the classifier. -/
inductive ShapeType where
  | circle
  | triangle
  | rectangle
  | pentagon
  | star
deriving DecidableEq

/-- Axis-aligned bounding box, from the min and max blob coordinates. -/
structure BoundingBox where
  x : ℤ
  y : ℤ
  width : ℤ
  height : ℤ
deriving DecidableEq

/-- One detected shape of the output list. -/
structure DetectedShape where
  type : ShapeType
  confidence : ℚ
  boundingBox : BoundingBox
  center : ℚ × ℚ
  area : ℤ
deriving DecidableEq

/-- The detection result; processingTime is timing and is not modelled. -/
structure DetectionResult where
  shapes : List DetectedShape
  imageWidth : ℕ
  imageHeight : ℕ
deriving DecidableEq

/-- Math.round: round half toward positive infinity. -/
def jsRound (q : ℚ) : ℤ := ⌊q + 1/2⌋

/-- The clamp a Uint8ClampedArray store applies to an integer value. -/
def clampByte (z : ℤ) : ℤ := min 255 (max 0 z)

/-- Step 1: gray[i] = round(0.299 r + 0.587 g + 0.114 b). A read past the
end of the pixel buffer yields undefined in JS, the weighted sum becomes
NaN and the clamped store writes 0; the else branch models that. -/
def grayAt (pixels : List ℕ) (i : ℕ) : ℤ :=
  if 4*i + 2 < pixels.length then
    clampByte (jsRound ((299/1000 : ℚ) * (pixels.getD (4*i) 0 : ℚ)
      + (587/1000 : ℚ) * (pixels.getD (4*i+1) 0 : ℚ)
      + (114/1000 : ℚ) * (pixels.getD (4*i+2) 0 : ℚ)))
  else 0

/-- Step 2: sum of the grayscale values sampled on the border (top row,
bottom row, then left and right column; corners sampled by both loops). -/
def borderSum (gray : ℕ → ℤ) (w h : ℕ) : ℤ :=
  (∑ x in Finset.range w, (gray x + gray ((h-1)*w + x)))
    + ∑ y in Finset.range h, (gray (y*w) + gray (y*w + (w-1)))

/-- Number of border samples: 2 per column plus 2 per row. -/
def borderCount (w h : ℕ) : ℕ := 2*w + 2*h

/-- Estimated background brightness. -/
def bgLevel (gray : ℕ → ℤ) (w h : ℕ) : ℚ :=
  (borderSum gray w h : ℚ) / (borderCount w h : ℚ)

/-- Sum of all grayscale values. -/
def totalSum (gray : ℕ → ℤ) (w h : ℕ) : ℤ := ∑ i in Finset.range (w*h), gray i

/-- Mean brightness over the whole image. -/
def avgLevel (gray : ℕ → ℤ) (w h : ℕ) : ℚ :=
  (totalSum gray w h : ℚ) / ((w*h : ℕ) : ℚ)

/-- Polarity flag: shapes darker than background when avg is below border. -/
def darkShapes (gray : ℕ → ℤ) (w h : ℕ) : Bool :=
  decide (avgLevel gray w h < bgLevel gray w h)

/-- Step 3 threshold: bgLevel * 0.9 in dark mode, bgLevel * 1.1 otherwise. -/
def threshold (gray : ℕ → ℤ) (w h : ℕ) : ℚ :=
  if darkShapes gray w h then bgLevel gray w h * (9/10) else bgLevel gray w h * (11/10)

/-- The binary mask: foreground test per pixel index. -/
def binaryOf (gray : ℕ → ℤ) (w h : ℕ) : ℕ → Bool := fun i =>
  if darkShapes gray w h then decide ((gray i : ℚ) < threshold gray w h)
  else decide (threshold gray w h < (gray i : ℚ))

/-- The eight neighbor offsets, in source order. -/
def dirs : List (ℤ × ℤ) :=
  [(1,0), (-1,0), (0,1), (0,-1), (1,1), (-1,-1), (1,-1), (-1,1)]

/-- One neighbor probe of the flood fill: if the neighbor is in bounds,
unvisited and foreground, mark it visited and push it on the stack.
The accumulator is the pair (stack, visited). -/
def floodStep (mask : ℕ → Bool) (w h : ℕ) (p : Point)
    (acc : List Point × List ℕ) (d : ℤ × ℤ) : List Point × List ℕ :=
  let nx := p.x + d.1
  let ny := p.y + d.2
  if 0 ≤ nx ∧ ny ≥ 0 ∧ nx < (w:ℤ) ∧ ny < (h:ℤ) then
    let ni := (ny * (w:ℤ) + nx).toNat
    if ni ∉ acc.2 ∧ mask ni = true then (⟨nx, ny⟩ :: acc.1, ni :: acc.2) else acc
  else acc

/-- The iterative stack-based flood fill. The stack is a cons list whose
head is the top; pushing the neighbors in dirs order and popping the head
reproduces the pop-from-the-end order of the source array. Each pushed
pixel is marked visited on discovery, so the total number of pops is
bounded by the pixel count; the fuel w*h+1 supplied at the call site is
therefore never exhausted. -/
def floodLoop (mask : ℕ → Bool) (w h : ℕ) :
    ℕ → List Point → List ℕ → List Point → List Point × List ℕ
  | 0, _, visited, blob => (blob, visited)
  | _+1, [], visited, blob => (blob, visited)
  | fuel+1, p :: rest, visited, blob =>
    let s := dirs.foldl (floodStep mask w h p) (rest, visited)
    floodLoop mask w h fuel s.1 s.2 (blob ++ [p])

/-- Row-major scan order: y outer, x inner. -/
def scanPairs (w h : ℕ) : List (ℕ × ℕ) :=
  (List.range h).flatMap (fun y => (List.range w).map (fun x => (x, y)))

/-- Step 4 scan: start a flood fill at every unvisited foreground pixel,
collecting the blobs in discovery order. -/
def scanAux (mask : ℕ → Bool) (w h : ℕ) :
    List (ℕ × ℕ) → List ℕ → List (List Point) → List (List Point)
  | [], _, acc => acc
  | (x, y) :: rest, visited, acc =>
    let i := y * w + x
    if mask i = true ∧ i ∉ visited then
      let r := floodLoop mask w h (w*h + 1) [⟨(x:ℤ), (y:ℤ)⟩] (i :: visited) []
      scanAux mask w h rest r.2 (acc ++ [r.1])
    else scanAux mask w h rest visited acc

/-- All blobs found by the row-major scan, before the noise filter. -/
def findBlobs (mask : ℕ → Bool) (w h : ℕ) : List (List Point) :=
  scanAux mask w h (scanPairs w h) [] []

/-- The contour list: the source pushes a blob only when blob.length > 20,
which is the same as filtering the found blobs by that test. -/
def contoursOf (mask : ℕ → Bool) (w h : ℕ) : List (List Point) :=
  (findBlobs mask w h).filter (fun b => decide (20 < b.length))

/-- Math.min over a nonempty spread argument list. -/
def listMin : List ℤ → ℤ
  | [] => 0
  | a :: t => t.foldl min a

/-- Math.max over a nonempty spread argument list. -/
def listMax : List ℤ → ℤ
  | [] => 0
  | a :: t => t.foldl max a

open Classical in
/-- Distance from p to the line through a and b: |cross| / hypot, and 0
when the segment length is 0. -/
noncomputable def perpendicularDistance (p a b : Point) : ℝ :=
  let num := |((b.y:ℝ) - (a.y:ℝ)) * (p.x:ℝ) - ((b.x:ℝ) - (a.x:ℝ)) * (p.y:ℝ)
      + (b.x:ℝ) * (a.y:ℝ) - (b.y:ℝ) * (a.x:ℝ)|
  let den := Real.sqrt (((b.x:ℝ) - (a.x:ℝ))^2 + ((b.y:ℝ) - (a.y:ℝ))^2)
  if den = 0 then 0 else num / den

open Classical in
/-- One iteration of the argmax loop of rdpSimplify: update the running
(index, maxDist) pair when the distance at index i is strictly larger. -/
noncomputable def selStep (points : List Point) (first lst : Point)
    (acc : ℤ × ℝ) (i : ℕ) : ℤ × ℝ :=
  let d := perpendicularDistance (points.getD i ⟨0, 0⟩) first lst
  if acc.2 < d then ((i:ℤ), d) else acc

/-- The argmax loop of rdpSimplify: i runs over the interior indices
1 .. length-2, starting from (index, maxDist) = (-1, 0). -/
noncomputable def selectFarthest (points : List Point) (first lst : Point) : ℤ × ℝ :=
  (List.range' 1 (points.length - 2)).foldl (selStep points first lst) (-1, 0)

open Classical in
/-- Ramer-Douglas-Peucker, with a fuel argument standing for the call
depth: every recursive call is on a strictly shorter list, so fuel equal
to the list length (as supplied by rdpSimplify) is never exhausted. -/
noncomputable def rdpAux : ℕ → List Point → ℝ → List Point
  | 0, points, _ => points
  | fuel+1, points, tolerance =>
    if points.length < 3 then points
    else
      let first := points.headD ⟨0, 0⟩
      let lst := points.getLastD ⟨0, 0⟩
      let sel := selectFarthest points first lst
      if tolerance < sel.2 ∧ sel.1 ≠ -1 then
        (rdpAux fuel (points.take (sel.1.toNat + 1)) tolerance).dropLast
          ++ rdpAux fuel (points.drop sel.1.toNat) tolerance
      else [first, lst]

/-- rdpSimplify(points, tolerance) from the source. -/
noncomputable def rdpSimplify (points : List Point) (tolerance : ℝ) : List Point :=
  rdpAux points.length points tolerance

/-- computeCenter: the point-average centroid of a blob. -/
noncomputable def computeCenter (points : List Point) : ℝ × ℝ :=
  ((((points.map Point.x).sum : ℤ) : ℝ) / (points.length : ℝ),
   (((points.map Point.y).sum : ℤ) : ℝ) / (points.length : ℝ))

/-- The radius of every blob point from the blob centroid, via Math.hypot. -/
noncomputable def radiiOf (contour : List Point) : List ℝ :=
  contour.map (fun p =>
    Real.sqrt (((p.x:ℝ) - (computeCenter contour).1)^2
      + ((p.y:ℝ) - (computeCenter contour).2)^2))

/-- Mean of the radii. -/
noncomputable def meanRadius (contour : List Point) : ℝ :=
  (radiiOf contour).sum / ((radiiOf contour).length : ℝ)

/-- Variance of the radii around their mean. -/
noncomputable def varianceOf (contour : List Point) : ℝ :=
  ((radiiOf contour).map (fun r => (r - meanRadius contour)^2)).sum
    / ((radiiOf contour).length : ℝ)

/-- Coefficient of variation: sqrt(variance) / mean. -/
noncomputable def cvOf (contour : List Point) : ℝ :=
  Real.sqrt (varianceOf contour) / meanRadius contour

open Classical in
/-- classifyShape from the source; w and h are accepted and unused there. -/
noncomputable def classifyShape (approx contour : List Point) (w h : ℤ) : ShapeType :=
  if approx.length = 3 then ShapeType.triangle
  else if approx.length = 4 then ShapeType.rectangle
  else if approx.length = 5 then ShapeType.pentagon
  else if cvOf contour < (15/100 : ℝ) then ShapeType.circle
  else ShapeType.star

/-- The base score switch of computeConfidence. -/
def baseScore : ShapeType → ℚ
  | ShapeType.triangle => 9/10
  | ShapeType.rectangle => 9/10
  | ShapeType.pentagon => 85/100
  | ShapeType.circle => 95/100
  | ShapeType.star => 8/10

/-- computeConfidence from the source; approx is accepted and unused there. -/
def computeConfidence (type : ShapeType) (approx contour : List Point) : ℚ :=
  let sizeFactor := min 1 ((contour.length : ℚ) / 500)
  min 1 (baseScore type * (8/10 + (2/10) * sizeFactor))

/-- Step 5 body: bounding box, center, simplified polygon, classification
and confidence for one blob. -/
noncomputable def mkShape (blob : List Point) : DetectedShape :=
  let xs := blob.map Point.x
  let ys := blob.map Point.y
  let minX := listMin xs
  let maxX := listMax xs
  let minY := listMin ys
  let maxY := listMax ys
  let w := maxX - minX
  let h := maxY - minY
  let approx := rdpSimplify blob 3
  let shapeType := classifyShape approx blob w h
  { type := shapeType
    confidence := computeConfidence shapeType approx blob
    boundingBox := ⟨minX, minY, w, h⟩
    center := (((minX : ℚ) + (maxX : ℚ)) / 2, ((minY : ℚ) + (maxY : ℚ)) / 2)
    area := w * h }

/-- The pipeline from the grayscale buffer on: steps 2 to 5. -/
noncomputable def detectFromGray (gray : ℕ → ℤ) (w h : ℕ) : DetectionResult :=
  { shapes := (contoursOf (binaryOf gray w h) w h).map mkShape
    imageWidth := w
    imageHeight := h }

/-- detectShapes: the full pipeline from an RGBA pixel buffer. -/
noncomputable def detectShapes (pixels : List ℕ) (w h : ℕ) : DetectionResult :=
  detectFromGray (grayAt pixels) w h

/-! Definitions written from the words of the specification, used by the
refinement claims that compare the code against the spec text. -/

/-- Spec 4.7: base score by type. -/
def specBase : ShapeType → ℚ
  | ShapeType.triangle => 9/10
  | ShapeType.rectangle => 9/10
  | ShapeType.pentagon => 85/100
  | ShapeType.circle => 95/100
  | ShapeType.star => 8/10

/-- Spec 4.7: min(1, base * (0.8 + 0.2 * min(1, blobPointCount / 500))). -/
def specConfidence (t : ShapeType) (blobPointCount : ℕ) : ℚ :=
  min 1 (specBase t * (8/10 + (2/10) * min 1 ((blobPointCount : ℚ) / 500)))

/-- Spec 4.6: the true point-average centroid of the full blob. -/
noncomputable def specCentroid (blob : List Point) : ℝ × ℝ :=
  ((((blob.map Point.x).sum : ℤ) : ℝ) / (blob.length : ℝ),
   (((blob.map Point.y).sum : ℤ) : ℝ) / (blob.length : ℝ))

/-- Spec 4.6: radius of every blob point from that centroid. -/
noncomputable def specRadii (blob : List Point) : List ℝ :=
  blob.map (fun p =>
    Real.sqrt (((p.x:ℝ) - (specCentroid blob).1)^2
      + ((p.y:ℝ) - (specCentroid blob).2)^2))

/-- Spec 4.6: mean of the radii. -/
noncomputable def specMeanRadius (blob : List Point) : ℝ :=
  (specRadii blob).sum / ((specRadii blob).length : ℝ)

/-- Spec 4.6: variance of the radii. -/
noncomputable def specVariance (blob : List Point) : ℝ :=
  ((specRadii blob).map (fun r => (r - specMeanRadius blob)^2)).sum
    / ((specRadii blob).length : ℝ)

/-- Spec 4.6: stddev of the radii. -/
noncomputable def specStddev (blob : List Point) : ℝ :=
  Real.sqrt (specVariance blob)

/-- Spec 4.6: cv = stddev(radii) / mean(radii). -/
noncomputable def specCv (blob : List Point) : ℝ :=
  specStddev blob / specMeanRadius blob

open Classical in
/-- Spec 4.6 decision order, first match wins: 3 vertices triangle,
4 rectangle, 5 pentagon, then circle when cv < 0.15, else star. -/
noncomputable def specClassify (approx contour : List Point) : ShapeType :=
  if approx.length = 3 then ShapeType.triangle
  else if approx.length = 4 then ShapeType.rectangle
  else if approx.length = 5 then ShapeType.pentagon
  else if specCv contour < (15/100 : ℝ) then ShapeType.circle
  else ShapeType.star

/-! Concrete inputs used by witnesses and counterexamples. -/

/-- A uniform RGBA buffer of n pixels of one color. -/
def uniformPixels (r g b a n : ℕ) : List ℕ :=
  (List.range (4*n)).map (fun j =>
    if j % 4 = 0 then r else if j % 4 = 1 then g else if j % 4 = 2 then b else a)

/-- The grayscale value of the uniform color. -/
def grayConst (r g b : ℕ) : ℤ :=
  clampByte (jsRound ((299/1000 : ℚ) * (r : ℚ)
    + (587/1000 : ℚ) * (g : ℚ) + (114/1000 : ℚ) * (b : ℚ)))

/-- A 9 x 9 grayscale image: white background, a 7 x 3 black block in rows
1-3 and a 7 x 3 block of gray value 240 in rows 5-7. -/
def gC5 : ℕ → ℤ := fun i =>
  let x := i % 9
  let y := i / 9
  if 1 ≤ x ∧ x ≤ 7 ∧ 1 ≤ y ∧ y ≤ 3 then 0
  else if 1 ≤ x ∧ x ≤ 7 ∧ 5 ≤ y ∧ y ≤ 7 then 240
  else 255

/-- A 6 x 6 grayscale image whose top four rows are black. -/
def gC3 : ℕ → ℤ := fun i => if i < 24 then 0 else 255

/-- A 3 x 3 grayscale image whose border averages exactly 127.5. -/
def gC5w : ℕ → ℤ := fun i =>
  if i = 4 then 0
  else if i = 1 ∨ i = 7 then 128
  else if i = 3 ∨ i = 5 then 129
  else 127

/-- The binary mask the pipeline derives from gC5: the dark block only. -/
def mC5a : ℕ → Bool := fun i =>
  decide (1 ≤ i % 9 ∧ i % 9 ≤ 7 ∧ 1 ≤ i / 9 ∧ i / 9 ≤ 3)

/-- The binary mask the pipeline derives from the inverted gC5: both
blocks become foreground. -/
def mC5b : ℕ → Bool := fun i =>
  decide (1 ≤ i % 9 ∧ i % 9 ≤ 7 ∧ ((1 ≤ i / 9 ∧ i / 9 ≤ 3) ∨ (5 ≤ i / 9 ∧ i / 9 ≤ 7)))

/-- Collinear three points, for the RDP collapse witness. -/
def ptsC6 : List Point := [⟨0, 0⟩, ⟨1, 0⟩, ⟨2, 0⟩]

/-- Three points with a far middle point: RDP keeps all of them, so the
result is not a strict subset of the input. -/
def ptsC6c : List Point := [⟨0, 0⟩, ⟨10, 10⟩, ⟨20, 0⟩]

/-- The row-major index of a pixel, as computed inside the flood fill. -/
def pIdx (w : ℕ) (p : Point) : ℕ := (p.y * (w:ℤ) + p.x).toNat

/-- A point of a blob that is in bounds and on a foreground mask cell. -/
def goodPoint (mask : ℕ → Bool) (w h : ℕ) (p : Point) : Prop :=
  0 ≤ p.x ∧ p.x < (w:ℤ) ∧ 0 ≤ p.y ∧ p.y < (h:ℤ) ∧ mask (pIdx w p) = true

/-- 8-adjacency of two pixels: distinct, and both coordinates differ by
at most one, exactly the neighborhoods reachable through dirs. -/
def adjacent (p q : Point) : Prop :=
  ¬p = q ∧ (q.x - p.x).natAbs ≤ 1 ∧ (q.y - p.y).natAbs ≤ 1

/-- Reachability through chains of foreground 8-neighbors. -/
def reach (mask : ℕ → Bool) (w h : ℕ) : Point → Point → Prop :=
  Relation.ReflTransGen (fun a b => goodPoint mask w h b ∧ adjacent a b)

/-- A list holding a maximal 8-connected foreground component: nonempty,
without repetition, all points foreground, closed under taking foreground
8-neighbors, and mutually reachable through foreground pixels. -/
def isComponent (mask : ℕ → Bool) (w h : ℕ) (b : List Point) : Prop :=
  b ≠ [] ∧ b.Nodup
  ∧ (∀ p ∈ b, goodPoint mask w h p)
  ∧ (∀ p ∈ b, ∀ q, goodPoint mask w h q → adjacent p q → q ∈ b)
  ∧ (∀ p ∈ b, ∀ q ∈ b, reach mask w h p q)

/-- Number of grid indices not yet marked visited; the flood-fill fuel
argument is measured against it. -/
def unmarked (w h : ℕ) (visited : List ℕ) : ℕ :=
  ((Finset.range (w*h)).filter (fun i => i ∉ visited)).card

/-- An all-foreground mask, used by concrete witnesses. -/
def mTrue : ℕ → Bool := fun _ => true

/-- The first contour of the all-foreground 7 x 4 image. -/
def bC7 : List Point := (contoursOf mTrue 7 4).headD []

/-- The first point of that contour. -/
def pC7 : Point := bC7.headD ⟨0, 0⟩

/-- The binary mask the pipeline derives from gC3, as a closed Bool
function: the dark top four rows are foreground. -/
def mC3 : ℕ → Bool := fun i => decide (i < 24)

/-- The first contour of the gC3 image. -/
def bC3 : List Point := (contoursOf mC3 6 6).headD []

/-! ## Theorems -/

lemma floodStep_good (mask : ℕ → Bool) (w h : ℕ) (p : Point)
    (acc : List Point × List ℕ) (d : ℤ × ℤ)
    (hacc : ∀ q ∈ acc.1, goodPoint mask w h q) :
    ∀ q ∈ (floodStep mask w h p acc d).1, goodPoint mask w h q := by
  intro q hq
  simp only [floodStep] at hq
  split_ifs at hq with h1 h2
  · rcases List.mem_cons.mp hq with rfl | hq
    · exact ⟨h1.1, h1.2.2.1, h1.2.1, h1.2.2.2, h2.2⟩
    · exact hacc q hq
  · exact hacc q hq
  · exact hacc q hq

lemma foldl_floodStep_good (mask : ℕ → Bool) (w h : ℕ) (p : Point) :
    ∀ (ds : List (ℤ × ℤ)) (acc : List Point × List ℕ),
      (∀ q ∈ acc.1, goodPoint mask w h q) →
      ∀ q ∈ (ds.foldl (floodStep mask w h p) acc).1, goodPoint mask w h q := by
  intro ds
  induction ds with
  | nil => intro acc hacc; exact hacc
  | cons d ds ih =>
    intro acc hacc
    exact ih (floodStep mask w h p acc d) (floodStep_good mask w h p acc d hacc)

lemma floodLoop_good (mask : ℕ → Bool) (w h : ℕ) :
    ∀ (fuel : ℕ) (stack : List Point) (visited : List ℕ) (blob : List Point),
      (∀ q ∈ stack, goodPoint mask w h q) →
      (∀ q ∈ blob, goodPoint mask w h q) →
      ∀ q ∈ (floodLoop mask w h fuel stack visited blob).1, goodPoint mask w h q := by
  intro fuel
  induction fuel with
  | zero => intro stack visited blob _ hblob; exact hblob
  | succ fuel ih =>
    intro stack visited blob hstack hblob
    cases stack with
    | nil => exact hblob
    | cons p rest =>
      simp only [floodLoop]
      apply ih
      · exact foldl_floodStep_good mask w h p dirs (rest, visited)
          (fun q hq => hstack q (List.mem_cons_of_mem p hq))
      · intro q hq
        rcases List.mem_append.mp hq with hq | hq
        · exact hblob q hq
        · have hq' := List.mem_singleton.mp hq
          rw [hq']
          exact hstack _ (List.mem_cons_self _ _)

lemma scanPairs_mem (w h x y : ℕ) (hm : (x, y) ∈ scanPairs w h) : x < w ∧ y < h := by
  simp only [scanPairs, List.mem_flatMap, List.mem_map, List.mem_range] at hm
  obtain ⟨y', hy', x', hx', heq⟩ := hm
  cases heq
  exact ⟨hx', hy'⟩

lemma scanAux_good (mask : ℕ → Bool) (w h : ℕ) :
    ∀ (l : List (ℕ × ℕ)) (visited : List ℕ) (acc : List (List Point)),
      (∀ xy : ℕ × ℕ, xy ∈ l → xy.1 < w ∧ xy.2 < h) →
      (∀ b ∈ acc, ∀ q ∈ b, goodPoint mask w h q) →
      ∀ b ∈ scanAux mask w h l visited acc, ∀ q ∈ b, goodPoint mask w h q := by
  intro l
  induction l with
  | nil => intro visited acc _ hacc; exact hacc
  | cons xy rest ih =>
    intro visited acc hl hacc
    obtain ⟨x, y⟩ := xy
    have hxy := hl (x, y) (List.mem_cons_self _ _)
    have hrest : ∀ xy : ℕ × ℕ, xy ∈ rest → xy.1 < w ∧ xy.2 < h :=
      fun xy hxy => hl xy (List.mem_cons_of_mem _ hxy)
    simp only [scanAux]
    split_ifs with hguard
    · apply ih _ _ hrest
      intro b hb q hq
      rcases List.mem_append.mp hb with hb | hb
      · exact hacc b hb q hq
      · rcases List.mem_singleton.mp hb with rfl
        apply floodLoop_good mask w h _ _ _ _ _ (fun q hq => (List.not_mem_nil q hq).elim) q hq
        intro q hq
        rcases List.mem_singleton.mp hq with rfl
        have hidx : (((y:ℤ)) * (w:ℤ) + ((x:ℤ))).toNat = y * w + x := by
          have : ((y:ℤ)) * (w:ℤ) + ((x:ℤ)) = ((y * w + x : ℕ) : ℤ) := by push_cast; ring
          rw [this, Int.toNat_natCast]
        refine ⟨Int.ofNat_nonneg x, ?_, Int.ofNat_nonneg y, ?_, ?_⟩
        · show ((x:ℕ):ℤ) < ((w:ℕ):ℤ)
          exact_mod_cast hxy.1
        · show ((y:ℕ):ℤ) < ((h:ℕ):ℤ)
          exact_mod_cast hxy.2
        · show mask ((((y:ℤ)) * (w:ℤ) + ((x:ℤ))).toNat) = true
          rw [hidx]; exact hguard.1
    · exact ih _ _ hrest hacc

lemma mem_contoursOf (mask : ℕ → Bool) (w h : ℕ) (b : List Point) :
    b ∈ contoursOf mask w h ↔ b ∈ findBlobs mask w h ∧ 20 < b.length := by
  simp [contoursOf, List.mem_filter]

lemma scanAux_false (mask : ℕ → Bool) (w h : ℕ) :
    ∀ (l : List (ℕ × ℕ)) (visited : List ℕ) (acc : List (List Point)),
      (∀ xy : ℕ × ℕ, xy ∈ l → mask (xy.2 * w + xy.1) = false) →
      scanAux mask w h l visited acc = acc := by
  intro l
  induction l with
  | nil => intro visited acc _; rfl
  | cons xy rest ih =>
    intro visited acc hl
    obtain ⟨x, y⟩ := xy
    have hxy := hl (x, y) (List.mem_cons_self _ _)
    simp only [scanAux]
    rw [if_neg]
    · exact ih _ _ (fun xy h => hl xy (List.mem_cons_of_mem _ h))
    · intro hc
      rw [hxy] at hc
      exact Bool.false_ne_true hc.1

lemma findBlobs_empty (mask : ℕ → Bool) (w h : ℕ)
    (hm : ∀ x y : ℕ, x < w → y < h → mask (y * w + x) = false) :
    findBlobs mask w h = [] := by
  rw [findBlobs]
  exact scanAux_false mask w h (scanPairs w h) [] []
    (fun xy hxy => hm xy.1 xy.2 (scanPairs_mem w h xy.1 xy.2 hxy).1
      (scanPairs_mem w h xy.1 xy.2 hxy).2)

lemma borderSum_const (gray : ℕ → ℤ) (c : ℤ) (w h : ℕ) (hw : 0 < w) (hh : 0 < h)
    (hg : ∀ i, i < w*h → gray i = c) :
    borderSum gray w h = 2*w*c + 2*h*c := by
  have hx1 : ∀ x, x < w → x < w*h := fun x hx =>
    lt_of_lt_of_le hx (Nat.le_mul_of_pos_right w hh)
  have e : (h-1)*w + w = h*w := by
    have h1 : h - 1 + 1 = h := Nat.succ_pred_eq_of_pos hh
    calc (h-1)*w + w = ((h-1)+1)*w := by rw [Nat.succ_mul]
      _ = h*w := by rw [h1]
  have hx2 : ∀ x, x < w → (h-1)*w + x < w*h := by
    intro x hx
    have h3 : (h-1)*w + x < (h-1)*w + w := Nat.add_lt_add_left hx _
    rw [e] at h3
    rw [Nat.mul_comm w h]
    exact h3
  have hy1 : ∀ y, y < h → y*w + (w-1) < w*h := by
    intro y hy
    have h4 : y*w + (w-1) < (y+1)*w := by
      rw [Nat.succ_mul]
      exact Nat.add_lt_add_left (by omega) _
    have h5 : (y+1)*w ≤ h*w := Nat.mul_le_mul_right w (by omega)
    rw [Nat.mul_comm w h]
    exact lt_of_lt_of_le h4 h5
  have hy2 : ∀ y, y < h → y*w < w*h := by
    intro y hy
    exact lt_of_le_of_lt (Nat.le_add_right _ _) (hy1 y hy)
  have e1 : ∑ x in Finset.range w, (gray x + gray ((h-1)*w + x))
      = ∑ _x in Finset.range w, (c + c) :=
    Finset.sum_congr rfl (fun x hx => by
      rw [hg x (hx1 x (Finset.mem_range.mp hx)), hg _ (hx2 x (Finset.mem_range.mp hx))])
  have e2 : ∑ y in Finset.range h, (gray (y*w) + gray (y*w + (w-1)))
      = ∑ _y in Finset.range h, (c + c) :=
    Finset.sum_congr rfl (fun y hy => by
      rw [hg _ (hy2 y (Finset.mem_range.mp hy)), hg _ (hy1 y (Finset.mem_range.mp hy))])
  rw [borderSum, e1, e2, Finset.sum_const, Finset.sum_const, Finset.card_range,
    Finset.card_range, nsmul_eq_mul, nsmul_eq_mul]
  ring

lemma totalSum_const (gray : ℕ → ℤ) (c : ℤ) (w h : ℕ)
    (hg : ∀ i, i < w*h → gray i = c) :
    totalSum gray w h = w*h*c := by
  have e1 : ∑ i in Finset.range (w*h), gray i = ∑ _i in Finset.range (w*h), c :=
    Finset.sum_congr rfl (fun i hi => hg i (Finset.mem_range.mp hi))
  rw [totalSum, e1, Finset.sum_const, Finset.card_range, nsmul_eq_mul]
  push_cast
  ring

lemma uniform_detect (gray : ℕ → ℤ) (c : ℤ) (w h : ℕ)
    (hw : 0 < w) (hh : 0 < h) (hc : 0 ≤ c)
    (hg : ∀ i, i < w*h → gray i = c) :
    detectFromGray gray w h = ⟨[], w, h⟩ := by
  have hbg : bgLevel gray w h = (c : ℚ) := by
    rw [bgLevel, borderSum_const gray c w h hw hh hg, borderCount]
    rw [div_eq_iff (by push_cast; positivity : ((2*w + 2*h : ℕ) : ℚ) ≠ 0)]
    push_cast
    ring
  have hav : avgLevel gray w h = (c : ℚ) := by
    rw [avgLevel, totalSum_const gray c w h hg]
    rw [div_eq_iff (by push_cast; positivity : ((w * h : ℕ) : ℚ) ≠ 0)]
    push_cast
    ring
  have hd : darkShapes gray w h = false := by
    rw [darkShapes, hbg, hav]
    simp
  have hmask : ∀ x y : ℕ, x < w → y < h → binaryOf gray w h (y * w + x) = false := by
    intro x y hx hy
    have hidx : y * w + x < w * h := by
      have h4 : y*w + x < (y+1)*w := by
        rw [Nat.succ_mul]
        exact Nat.add_lt_add_left hx _
      have h5 : (y+1)*w ≤ h*w := Nat.mul_le_mul_right w (by omega)
      rw [Nat.mul_comm w h]
      exact lt_of_lt_of_le h4 h5
    rw [binaryOf]
    rw [if_neg (by rw [hd]; exact Bool.false_ne_true)]
    rw [threshold, if_neg (by rw [hd]; exact Bool.false_ne_true), hbg, hg _ hidx]
    apply decide_eq_false
    intro hcon
    have : (0:ℚ) ≤ (c:ℚ) := by exact_mod_cast hc
    nlinarith
  have hblobs : findBlobs (binaryOf gray w h) w h = [] := findBlobs_empty _ w h hmask
  rw [detectFromGray]
  rw [show contoursOf (binaryOf gray w h) w h = [] from by rw [contoursOf, hblobs]; rfl]
  rfl

lemma binaryC3 : binaryOf gC3 6 6 = mC3 := by
  have hbS : borderSum gC3 6 6 = 2550 := by decide
  have htS : totalSum gC3 6 6 = 3060 := by decide
  have hbg : bgLevel gC3 6 6 = 2550/24 := by
    rw [bgLevel, hbS]; norm_num [borderCount]
  have hav : avgLevel gC3 6 6 = 85 := by
    rw [avgLevel, htS]; norm_num
  have hd : darkShapes gC3 6 6 = true := by
    rw [darkShapes, hbg, hav]; norm_num
  have hth : threshold gC3 6 6 = 765/8 := by
    rw [threshold, if_pos hd, hbg]; norm_num
  funext i
  simp only [binaryOf, mC3]
  rw [if_pos hd, hth]
  by_cases hi : i < 24
  · rw [show gC3 i = 0 from by simp [gC3, hi]]
    rw [decide_eq_true (show (((0:ℤ):ℚ)) < 765/8 by norm_num), decide_eq_true hi]
  · rw [show gC3 i = 255 from by simp [gC3, hi]]
    rw [decide_eq_false (show ¬(((255:ℤ):ℚ)) < 765/8 by norm_num), decide_eq_false hi]

/-- Witness for C3 at a concrete image with one 24-pixel blob. -/
lemma uniformPixels_length (r g b a n : ℕ) : (uniformPixels r g b a n).length = 4*n := by
  simp [uniformPixels]

lemma uniformPixels_getD (r g b a n j k : ℕ) (hj : j < 4*n) :
    (uniformPixels r g b a n).getD j k
      = if j % 4 = 0 then r else if j % 4 = 1 then g else if j % 4 = 2 then b else a := by
  rw [List.getD_eq_getElem (uniformPixels r g b a n) k
    (by rw [uniformPixels_length]; exact hj)]
  simp [uniformPixels]

lemma grayAt_uniform (r g b a n i : ℕ) (hi : i < n) :
    grayAt (uniformPixels r g b a n) i = grayConst r g b := by
  have h2 : 4*i + 2 < 4*n := by omega
  rw [grayAt, if_pos (by rw [uniformPixels_length]; exact h2)]
  rw [uniformPixels_getD r g b a n (4*i) 0 (by omega),
    uniformPixels_getD r g b a n (4*i+1) 0 (by omega),
    uniformPixels_getD r g b a n (4*i+2) 0 (by omega)]
  have m0 : (4*i) % 4 = 0 := by omega
  have m1 : (4*i+1) % 4 = 1 := by omega
  have m2 : (4*i+2) % 4 = 2 := by omega
  rw [if_pos m0, if_neg (by omega), if_pos m1, if_neg (by omega), if_neg (by omega),
    if_pos m2]
  rfl

/-- C8: detection of a uniform image of any single color completes and
returns zero shapes. -/
theorem C8_uniform_zero_shapes (r g b a w h : ℕ) (hw : 0 < w) (hh : 0 < h) :
    detectShapes (uniformPixels r g b a (w*h)) w h = ⟨[], w, h⟩ := by
  rw [detectShapes]
  apply uniform_detect _ (grayConst r g b) w h hw hh
  · exact le_min (by norm_num) (le_max_left 0 _)
  · intro i hi
    exact grayAt_uniform r g b a (w*h) i hi

/-- Witness for C8 at a concrete uniform 2 x 3 image. -/
theorem C8_witness :
    0 < 2 ∧ 0 < 3
    ∧ detectShapes (uniformPixels 10 20 30 255 (2*3)) 2 3 = ⟨[], 2, 3⟩ :=
  ⟨by decide, by decide, C8_uniform_zero_shapes 10 20 30 255 2 3 (by decide) (by decide)⟩

/-- C2 counterexample: a call whose buffer length violates the
precondition pixels.length = width*height*4 does not fail; it completes
and returns an ordinary empty result. -/
theorem C2_counterexample :
    (([] : List ℕ).length ≠ 4*(1*1)) ∧ detectShapes [] 1 1 = ⟨[], 1, 1⟩ := by
  refine ⟨by decide, ?_⟩
  rw [detectShapes]
  exact uniform_detect _ 0 1 1 one_pos one_pos le_rfl (fun i _ => by simp [grayAt])

/-- C2 amended: the core performs no precondition validation; a call with
an empty pixel buffer and positive dimensions, which violates the buffer
size precondition, proceeds (missing bytes read as zero luminance after
the NaN clamp) and returns an ordinary zero-shape result instead of
failing. -/
theorem C2_no_validation (w h : ℕ) (hw : 0 < w) (hh : 0 < h) :
    ([] : List ℕ).length ≠ 4*(w*h) ∧ detectShapes [] w h = ⟨[], w, h⟩ := by
  constructor
  · have := Nat.mul_pos hw hh
    simp only [List.length_nil]
    omega
  · rw [detectShapes]
    exact uniform_detect _ 0 w h hw hh le_rfl (fun i _ => by simp [grayAt])

/-- Witness for C2 at concrete positive dimensions. -/
theorem C2_witness :
    0 < 2 ∧ 0 < 3
    ∧ (([] : List ℕ).length ≠ 4*(2*3) ∧ detectShapes [] 2 3 = ⟨[], 2, 3⟩) :=
  ⟨by decide, by decide, C2_no_validation 2 3 (by decide) (by decide)⟩

lemma binaryC5a : binaryOf gC5 9 9 = mC5a := by
  have hbS : borderSum gC5 9 9 = 9180 := by decide
  have htS : totalSum gC5 9 9 = 14985 := by decide
  have hbg : bgLevel gC5 9 9 = 255 := by
    rw [bgLevel, hbS]; norm_num [borderCount]
  have hav : avgLevel gC5 9 9 = 185 := by
    rw [avgLevel, htS]; norm_num
  have hd : darkShapes gC5 9 9 = true := by
    rw [darkShapes, hbg, hav]
    exact decide_eq_true (by norm_num)
  have hth : threshold gC5 9 9 = 459/2 := by
    rw [threshold, if_pos hd, hbg]; norm_num
  funext i
  simp only [binaryOf, mC5a]
  rw [if_pos hd, hth]
  by_cases hA : 1 ≤ i % 9 ∧ i % 9 ≤ 7 ∧ 1 ≤ i / 9 ∧ i / 9 ≤ 3
  · rw [show gC5 i = 0 from by simp only [gC5]; rw [if_pos hA]]
    rw [decide_eq_true (show (((0:ℤ):ℚ)) < 459/2 by norm_num), decide_eq_true hA]
  · by_cases hB : 1 ≤ i % 9 ∧ i % 9 ≤ 7 ∧ 5 ≤ i / 9 ∧ i / 9 ≤ 7
    · rw [show gC5 i = 240 from by simp only [gC5]; rw [if_neg hA, if_pos hB]]
      rw [decide_eq_false (show ¬(((240:ℤ):ℚ)) < 459/2 by norm_num),
        decide_eq_false hA]
    · rw [show gC5 i = 255 from by simp only [gC5]; rw [if_neg hA, if_neg hB]]
      rw [decide_eq_false (show ¬(((255:ℤ):ℚ)) < 459/2 by norm_num),
        decide_eq_false hA]

lemma binaryC5b : binaryOf (fun i => 255 - gC5 i) 9 9 = mC5b := by
  have hbS : borderSum (fun i => 255 - gC5 i) 9 9 = 0 := by decide
  have htS : totalSum (fun i => 255 - gC5 i) 9 9 = 5670 := by decide
  have hbg : bgLevel (fun i => 255 - gC5 i) 9 9 = 0 := by
    rw [bgLevel, hbS]; norm_num
  have hav : avgLevel (fun i => 255 - gC5 i) 9 9 = 70 := by
    rw [avgLevel, htS]; norm_num
  have hd : darkShapes (fun i => 255 - gC5 i) 9 9 = false := by
    rw [darkShapes, hbg, hav]
    exact decide_eq_false (by norm_num)
  have hth : threshold (fun i => 255 - gC5 i) 9 9 = 0 := by
    rw [threshold, if_neg (by rw [hd]; exact Bool.false_ne_true), hbg]; norm_num
  funext i
  simp only [binaryOf, mC5b]
  rw [if_neg (by rw [hd]; exact Bool.false_ne_true), hth]
  by_cases hA : 1 ≤ i % 9 ∧ i % 9 ≤ 7 ∧ 1 ≤ i / 9 ∧ i / 9 ≤ 3
  · have h0 : gC5 i = 0 := by simp only [gC5]; rw [if_pos hA]
    rw [decide_eq_true (show (0:ℚ) < (((255 - gC5 i : ℤ)):ℚ) from by
        rw [h0]; norm_num),
      decide_eq_true ⟨hA.1, hA.2.1, Or.inl ⟨hA.2.2.1, hA.2.2.2⟩⟩]
  · by_cases hB : 1 ≤ i % 9 ∧ i % 9 ≤ 7 ∧ 5 ≤ i / 9 ∧ i / 9 ≤ 7
    · have h0 : gC5 i = 240 := by simp only [gC5]; rw [if_neg hA, if_pos hB]
      rw [decide_eq_true (show (0:ℚ) < (((255 - gC5 i : ℤ)):ℚ) from by
          rw [h0]; norm_num),
        decide_eq_true ⟨hB.1, hB.2.1, Or.inr ⟨hB.2.2.1, hB.2.2.2⟩⟩]
    · have h0 : gC5 i = 255 := by simp only [gC5]; rw [if_neg hA, if_neg hB]
      rw [decide_eq_false (show ¬(0:ℚ) < (((255 - gC5 i : ℤ)):ℚ) from by
          rw [h0]; norm_num),
        decide_eq_false (show ¬(1 ≤ i % 9 ∧ i % 9 ≤ 7
          ∧ ((1 ≤ i / 9 ∧ i / 9 ≤ 3) ∨ (5 ≤ i / 9 ∧ i / 9 ≤ 7))) from by tauto)]

/-- C5 counterexample: on the gC5 image the detector finds one shape, on
its luminance inversion it finds two, so inversion does not preserve the
detected shapes. -/
theorem C5_counterexample :
    (detectFromGray gC5 9 9).shapes.length = 1
    ∧ (detectFromGray (fun i => 255 - gC5 i) 9 9).shapes.length = 2 := by
  constructor
  · rw [show (detectFromGray gC5 9 9).shapes
        = (contoursOf (binaryOf gC5 9 9) 9 9).map mkShape from rfl,
      List.length_map, binaryC5a]
    decide
  · rw [show (detectFromGray (fun i => 255 - gC5 i) 9 9).shapes
        = (contoursOf (binaryOf (fun i => 255 - gC5 i) 9 9) 9 9).map mkShape from rfl,
      List.length_map, binaryC5b]
    decide

lemma borderSum_invert (gray : ℕ → ℤ) (w h : ℕ) :
    borderSum (fun i => 255 - gray i) w h
      = 510 * w + 510 * h - borderSum gray w h := by
  simp only [borderSum]
  have e1 : ∑ x in Finset.range w, ((255 - gray x) + (255 - gray ((h-1)*w + x)))
      = ∑ x in Finset.range w, (510 - (gray x + gray ((h-1)*w + x))) :=
    Finset.sum_congr rfl (fun x _ => by ring)
  have e2 : ∑ y in Finset.range h, ((255 - gray (y*w)) + (255 - gray (y*w + (w-1))))
      = ∑ y in Finset.range h, (510 - (gray (y*w) + gray (y*w + (w-1)))) :=
    Finset.sum_congr rfl (fun y _ => by ring)
  rw [e1, e2, Finset.sum_sub_distrib, Finset.sum_sub_distrib, Finset.sum_const,
    Finset.sum_const, Finset.card_range, Finset.card_range, nsmul_eq_mul, nsmul_eq_mul]
  ring

lemma totalSum_invert (gray : ℕ → ℤ) (w h : ℕ) :
    totalSum (fun i => 255 - gray i) w h = 255 * (w*h) - totalSum gray w h := by
  simp only [totalSum]
  rw [Finset.sum_sub_distrib, Finset.sum_const, Finset.card_range, nsmul_eq_mul]
  push_cast
  ring

lemma bgLevel_invert (gray : ℕ → ℤ) (w h : ℕ) (hw : 0 < w) (hh : 0 < h) :
    bgLevel (fun i => 255 - gray i) w h = 255 - bgLevel gray w h := by
  have hwq : (0:ℚ) < (w:ℚ) := by exact_mod_cast hw
  have hhq : (0:ℚ) < (h:ℚ) := by exact_mod_cast hh
  have hne : (2*(w:ℚ) + 2*(h:ℚ)) ≠ 0 := by positivity
  rw [bgLevel, bgLevel, borderSum_invert, borderCount]
  push_cast
  field_simp
  ring

lemma avgLevel_invert (gray : ℕ → ℤ) (w h : ℕ) (hw : 0 < w) (hh : 0 < h) :
    avgLevel (fun i => 255 - gray i) w h = 255 - avgLevel gray w h := by
  have hwq : (0:ℚ) < (w:ℚ) := by exact_mod_cast hw
  have hhq : (0:ℚ) < (h:ℚ) := by exact_mod_cast hh
  have hne : ((w:ℚ) * (h:ℚ)) ≠ 0 := by positivity
  rw [avgLevel, avgLevel, totalSum_invert]
  push_cast
  field_simp

/-- C5 amended: polarity symmetry does hold in the special case where the
border average is exactly the middle gray 127.5 and the image average
differs from it: then inverting the luminance yields the identical binary
mask and hence the identical detection result. In general the asymmetric
threshold factors 0.9 and 1.1 break the symmetry. -/
theorem C5_polarity_symmetry_at_midgray (gray : ℕ → ℤ) (w h : ℕ)
    (hw : 0 < w) (hh : 0 < h)
    (hbg : bgLevel gray w h = 255/2)
    (hne : avgLevel gray w h ≠ bgLevel gray w h) :
    detectFromGray (fun i => 255 - gray i) w h = detectFromGray gray w h := by
  have hbg' : bgLevel (fun i => 255 - gray i) w h = 255/2 := by
    rw [bgLevel_invert gray w h hw hh, hbg]; norm_num
  have hav' : avgLevel (fun i => 255 - gray i) w h = 255 - avgLevel gray w h :=
    avgLevel_invert gray w h hw hh
  have hmask : binaryOf (fun i => 255 - gray i) w h = binaryOf gray w h := by
    rcases lt_or_gt_of_ne hne with hlt | hgt
    · have hd : darkShapes gray w h = true := by
        rw [darkShapes]; exact decide_eq_true hlt
      have hd' : darkShapes (fun i => 255 - gray i) w h = false := by
        rw [darkShapes, hav', hbg']
        apply decide_eq_false
        rw [hbg] at hlt
        intro hcon
        linarith
      have htho : threshold gray w h = 255/2 * (9/10) := by
        rw [threshold, if_pos hd, hbg]
      have hthi : threshold (fun i => 255 - gray i) w h = 255/2 * (11/10) := by
        rw [threshold, if_neg (by rw [hd']; exact Bool.false_ne_true), hbg']
      funext i
      simp only [binaryOf]
      rw [if_neg (by rw [hd']; exact Bool.false_ne_true), if_pos hd, hthi, htho]
      apply decide_eq_decide.mpr
      push_cast
      constructor
      · intro hx; linarith
      · intro hx; linarith
    · have hd : darkShapes gray w h = false := by
        rw [darkShapes]
        exact decide_eq_false (by intro hcon; exact absurd hcon (not_lt.mpr (le_of_lt hgt)))
      have hd' : darkShapes (fun i => 255 - gray i) w h = true := by
        rw [darkShapes, hav', hbg']
        apply decide_eq_true
        rw [hbg] at hgt
        linarith
      have htho : threshold gray w h = 255/2 * (11/10) := by
        rw [threshold, if_neg (by rw [hd]; exact Bool.false_ne_true), hbg]
      have hthi : threshold (fun i => 255 - gray i) w h = 255/2 * (9/10) := by
        rw [threshold, if_pos hd', hbg']
      funext i
      simp only [binaryOf]
      rw [if_pos hd', if_neg (by rw [hd]; exact Bool.false_ne_true), hthi, htho]
      apply decide_eq_decide.mpr
      push_cast
      constructor
      · intro hx; linarith
      · intro hx; linarith
  rw [detectFromGray, detectFromGray, hmask]

/-- Witness for C5 at a concrete 3 x 3 image whose border averages 127.5. -/
theorem C5_witness :
    bgLevel gC5w 3 3 = 255/2
    ∧ avgLevel gC5w 3 3 ≠ bgLevel gC5w 3 3
    ∧ detectFromGray (fun i => 255 - gC5w i) 3 3 = detectFromGray gC5w 3 3 := by
  have hbS : borderSum gC5w 3 3 = 1530 := by decide
  have htS : totalSum gC5w 3 3 = 1022 := by decide
  have hbg : bgLevel gC5w 3 3 = 255/2 := by
    rw [bgLevel, hbS]; norm_num [borderCount]
  have hav : avgLevel gC5w 3 3 = 1022/9 := by
    rw [avgLevel, htS]; norm_num
  have hne : avgLevel gC5w 3 3 ≠ bgLevel gC5w 3 3 := by
    rw [hav, hbg]; norm_num
  exact ⟨hbg, hne,
    C5_polarity_symmetry_at_midgray gC5w 3 3 (by decide) (by decide) hbg hne⟩

lemma radiiOf_length (contour : List Point) :
    (radiiOf contour).length = contour.length := by
  simp [radiiOf]

lemma radiiOf_nonneg (contour : List Point) :
    ∀ r ∈ radiiOf contour, 0 ≤ r := by
  intro r hr
  simp only [radiiOf, List.mem_map] at hr
  obtain ⟨p, _, rfl⟩ := hr
  exact Real.sqrt_nonneg _

/-- C9: for a blob with at least two distinct pixels, the radii list is
nonempty and the mean radius is strictly positive, so the divisions by
radii.length and by the mean are divisions by nonzero values, and the
variance under the square root is nonnegative. -/
theorem C9_circularity_safe (contour : List Point)
    (hdist : ∃ p ∈ contour, ∃ q ∈ contour, p ≠ q) :
    0 < (radiiOf contour).length
    ∧ 0 < meanRadius contour
    ∧ 0 ≤ varianceOf contour := by
  obtain ⟨p, hp, q, hq, hpq⟩ := hdist
  have hne : contour ≠ [] := List.ne_nil_of_mem hp
  have hlen : 0 < contour.length := List.length_pos.mpr hne
  have hrlen : 0 < (radiiOf contour).length := by
    rw [radiiOf_length]; exact hlen
  have hlenR : (0:ℝ) < ((radiiOf contour).length : ℝ) := by exact_mod_cast hrlen
  refine ⟨hrlen, ?_, ?_⟩
  · -- some point differs from the centroid in at least one coordinate
    have hkey : ∃ r ∈ contour,
        ((r.x:ℝ) - (computeCenter contour).1)^2
          + ((r.y:ℝ) - (computeCenter contour).2)^2 > 0 := by
      by_contra hcon
      push_neg at hcon
      have hz : ∀ r ∈ contour, (r.x:ℝ) = (computeCenter contour).1
          ∧ (r.y:ℝ) = (computeCenter contour).2 := by
        intro r hr
        have h1 := hcon r hr
        have h2 : ((r.x:ℝ) - (computeCenter contour).1)^2
            + ((r.y:ℝ) - (computeCenter contour).2)^2 = 0 :=
          le_antisymm h1 (by positivity)
        have h3 : ((r.x:ℝ) - (computeCenter contour).1)^2 = 0
            ∧ ((r.y:ℝ) - (computeCenter contour).2)^2 = 0 := by
          constructor <;> nlinarith [sq_nonneg ((r.x:ℝ) - (computeCenter contour).1),
            sq_nonneg ((r.y:ℝ) - (computeCenter contour).2)]
        constructor
        · have h4 : ((r.x:ℝ) - (computeCenter contour).1)^2 = 0 := h3.1
          have h5 : (r.x:ℝ) - (computeCenter contour).1 = 0 :=
            pow_eq_zero_iff two_ne_zero |>.mp h4
          linarith
        · have h4 : ((r.y:ℝ) - (computeCenter contour).2)^2 = 0 := h3.2
          have h5 : (r.y:ℝ) - (computeCenter contour).2 = 0 :=
            pow_eq_zero_iff two_ne_zero |>.mp h4
          linarith
      have hpc := hz p hp
      have hqc := hz q hq
      apply hpq
      have hx : (p.x:ℝ) = (q.x:ℝ) := by rw [hpc.1, hqc.1]
      have hy : (p.y:ℝ) = (q.y:ℝ) := by rw [hpc.2, hqc.2]
      cases p; cases q
      simp only [Point.mk.injEq]
      exact ⟨by exact_mod_cast hx, by exact_mod_cast hy⟩
    obtain ⟨r, hr, hrpos⟩ := hkey
    have hsum : 0 < (radiiOf contour).sum := by
      obtain ⟨s, t, rfl⟩ := List.append_of_mem hr
      have hsplit : radiiOf (s ++ r :: t)
          = (s.map (fun p => Real.sqrt (((p.x:ℝ) - (computeCenter (s ++ r :: t)).1)^2
              + ((p.y:ℝ) - (computeCenter (s ++ r :: t)).2)^2)))
            ++ Real.sqrt (((r.x:ℝ) - (computeCenter (s ++ r :: t)).1)^2
              + ((r.y:ℝ) - (computeCenter (s ++ r :: t)).2)^2)
            :: (t.map (fun p => Real.sqrt (((p.x:ℝ) - (computeCenter (s ++ r :: t)).1)^2
              + ((p.y:ℝ) - (computeCenter (s ++ r :: t)).2)^2))) := by
        simp [radiiOf]
      rw [hsplit, List.sum_append, List.sum_cons]
      have h1 : (0:ℝ) ≤ (s.map (fun p => Real.sqrt (((p.x:ℝ) - (computeCenter (s ++ r :: t)).1)^2
          + ((p.y:ℝ) - (computeCenter (s ++ r :: t)).2)^2))).sum :=
        List.sum_nonneg (by
          intro x hx
          simp only [List.mem_map] at hx
          obtain ⟨p', _, rfl⟩ := hx
          exact Real.sqrt_nonneg _)
      have h2 : (0:ℝ) ≤ (t.map (fun p => Real.sqrt (((p.x:ℝ) - (computeCenter (s ++ r :: t)).1)^2
          + ((p.y:ℝ) - (computeCenter (s ++ r :: t)).2)^2))).sum :=
        List.sum_nonneg (by
          intro x hx
          simp only [List.mem_map] at hx
          obtain ⟨p', _, rfl⟩ := hx
          exact Real.sqrt_nonneg _)
      have h3 : 0 < Real.sqrt (((r.x:ℝ) - (computeCenter (s ++ r :: t)).1)^2
          + ((r.y:ℝ) - (computeCenter (s ++ r :: t)).2)^2) :=
        Real.sqrt_pos.mpr hrpos
      linarith
    rw [meanRadius]
    exact div_pos hsum hlenR
  · rw [varianceOf]
    apply div_nonneg _ (le_of_lt hlenR)
    apply List.sum_nonneg
    intro x hx
    simp only [List.mem_map] at hx
    obtain ⟨r', _, rfl⟩ := hx
    exact sq_nonneg _

/-- Witness for C9 at a concrete two-point blob. -/
theorem C9_witness :
    (∃ p ∈ ([⟨0,0⟩, ⟨1,0⟩] : List Point), ∃ q ∈ ([⟨0,0⟩, ⟨1,0⟩] : List Point), p ≠ q)
    ∧ (0 < (radiiOf ([⟨0,0⟩, ⟨1,0⟩] : List Point)).length
      ∧ 0 < meanRadius ([⟨0,0⟩, ⟨1,0⟩] : List Point)
      ∧ 0 ≤ varianceOf ([⟨0,0⟩, ⟨1,0⟩] : List Point)) :=
  ⟨⟨⟨0,0⟩, by decide, ⟨1,0⟩, by decide, by decide⟩,
   C9_circularity_safe ([⟨0,0⟩, ⟨1,0⟩] : List Point)
     ⟨⟨0,0⟩, by decide, ⟨1,0⟩, by decide, by decide⟩⟩

lemma foldl_min_le_init (t : List ℤ) : ∀ a : ℤ, t.foldl min a ≤ a := by
  induction t with
  | nil => intro a; exact le_refl a
  | cons b t ih => intro a; exact le_trans (ih (min a b)) (min_le_left a b)

lemma foldl_min_le_mem (t : List ℤ) : ∀ a x : ℤ, x ∈ t → t.foldl min a ≤ x := by
  induction t with
  | nil => intro a x hx; cases hx
  | cons b t ih =>
    intro a x hx
    rcases List.mem_cons.mp hx with rfl | hx
    · exact le_trans (foldl_min_le_init t (min a x)) (min_le_right a x)
    · exact ih (min a b) x hx

lemma le_foldl_max_init (t : List ℤ) : ∀ a : ℤ, a ≤ t.foldl max a := by
  induction t with
  | nil => intro a; exact le_refl a
  | cons b t ih => intro a; exact le_trans (le_max_left a b) (ih (max a b))

lemma le_foldl_max_mem (t : List ℤ) : ∀ a x : ℤ, x ∈ t → x ≤ t.foldl max a := by
  induction t with
  | nil => intro a x hx; cases hx
  | cons b t ih =>
    intro a x hx
    rcases List.mem_cons.mp hx with rfl | hx
    · exact le_trans (le_max_right a x) (le_foldl_max_init t (max a x))
    · exact ih (max a b) x hx

lemma listMin_le (l : List ℤ) (x : ℤ) (hx : x ∈ l) : listMin l ≤ x := by
  cases l with
  | nil => cases hx
  | cons a t =>
    rcases List.mem_cons.mp hx with rfl | hx
    · exact foldl_min_le_init t x
    · exact foldl_min_le_mem t a x hx

lemma le_listMax (l : List ℤ) (x : ℤ) (hx : x ∈ l) : x ≤ listMax l := by
  cases l with
  | nil => cases hx
  | cons a t =>
    rcases List.mem_cons.mp hx with rfl | hx
    · exact le_foldl_max_init t x
    · exact le_foldl_max_mem t a x hx

/-- C7: every point of a source blob of an output shape lies inside that
bounding box of that shape. -/
theorem C7_bbox_contains (mask : ℕ → Bool) (w h : ℕ) (b : List Point) (p : Point)
    (hb : b ∈ contoursOf mask w h) (hp : p ∈ b) :
    (mkShape b).boundingBox.x ≤ p.x
    ∧ p.x ≤ (mkShape b).boundingBox.x + (mkShape b).boundingBox.width
    ∧ (mkShape b).boundingBox.y ≤ p.y
    ∧ p.y ≤ (mkShape b).boundingBox.y + (mkShape b).boundingBox.height := by
  have hx : p.x ∈ b.map Point.x := List.mem_map_of_mem Point.x hp
  have hy : p.y ∈ b.map Point.y := List.mem_map_of_mem Point.y hp
  have h1 := listMin_le _ _ hx
  have h2 := le_listMax _ _ hx
  have h3 := listMin_le _ _ hy
  have h4 := le_listMax _ _ hy
  simp only [mkShape]
  exact ⟨h1, by omega, h3, by omega⟩

/-- Witness for C7 at a concrete mask, blob and point. -/
theorem C7_witness :
    bC7 ∈ contoursOf mTrue 7 4 ∧ pC7 ∈ bC7
    ∧ ((mkShape bC7).boundingBox.x ≤ pC7.x
      ∧ pC7.x ≤ (mkShape bC7).boundingBox.x + (mkShape bC7).boundingBox.width
      ∧ (mkShape bC7).boundingBox.y ≤ pC7.y
      ∧ pC7.y ≤ (mkShape bC7).boundingBox.y + (mkShape bC7).boundingBox.height) :=
  ⟨by decide, by decide, C7_bbox_contains mTrue 7 4 bC7 pC7 (by decide) (by decide)⟩

/-- C1: the classifier returns triangle for exactly 3 vertices of the
simplified polygon, rectangle for 4, pentagon for 5, in that order with
first match winning; otherwise it computes the point-average centroid of
the full blob, the coefficient of variation of the radii, labels circle
when cv < 0.15 and star in every remaining case — that is, the code
classifier agrees with the decision table written in the spec. -/
theorem C1_classifier_matches_spec (approx contour : List Point) (w h : ℤ) :
    classifyShape approx contour w h = specClassify approx contour := rfl

/-- C4: for every shape, confidence equals
min(1, base * (0.8 + 0.2 * min(1, blobPointCount / 500))) with the spec
base table, and it lies in [0, 1]. -/
theorem C4_confidence_formula (t : ShapeType) (approx contour : List Point) :
    computeConfidence t approx contour = specConfidence t contour.length
    ∧ 0 ≤ computeConfidence t approx contour
    ∧ computeConfidence t approx contour ≤ 1 := by
  have hsf0 : (0:ℚ) ≤ min 1 ((contour.length : ℚ) / 500) :=
    le_min (by norm_num) (by positivity)
  have hb0 : 0 ≤ baseScore t := by cases t <;> norm_num [baseScore]
  refine ⟨by cases t <;> rfl, ?_, ?_⟩
  · simp only [computeConfidence]
    exact le_min (by norm_num) (by nlinarith)
  · simp only [computeConfidence]
    exact min_le_left _ _

/-- C10: confidence in fact always lies in [0.64, 0.95]: the product
base * (0.8 + 0.2 * sizeFactor) never exceeds 0.95, so the outer min
never binds and confidence never reaches 1. -/
theorem C10_confidence_tight_bounds (t : ShapeType) (approx contour : List Point) :
    (64/100 : ℚ) ≤ computeConfidence t approx contour
    ∧ computeConfidence t approx contour ≤ 95/100
    ∧ computeConfidence t approx contour
        = baseScore t * (8/10 + (2/10) * min 1 ((contour.length : ℚ) / 500))
    ∧ computeConfidence t approx contour < 1 := by
  have hsf0 : (0:ℚ) ≤ min 1 ((contour.length : ℚ) / 500) :=
    le_min (by norm_num) (by positivity)
  have hsf1 : min 1 ((contour.length : ℚ) / 500) ≤ 1 := min_le_left _ _
  have hb : (8/10 : ℚ) ≤ baseScore t ∧ baseScore t ≤ 95/100 := by
    cases t <;> norm_num [baseScore]
  have hunclamped : computeConfidence t approx contour
      = baseScore t * (8/10 + (2/10) * min 1 ((contour.length : ℚ) / 500)) := by
    simp only [computeConfidence]
    exact min_eq_right (by nlinarith [hb.1, hb.2])
  refine ⟨?_, ?_, hunclamped, ?_⟩
  · rw [hunclamped]; nlinarith [hb.1, hb.2]
  · rw [hunclamped]; nlinarith [hb.1, hb.2]
  · rw [hunclamped]; nlinarith [hb.1, hb.2]


lemma headD_mem (l : List Point) (d : Point) (h : l ≠ []) : l.headD d ∈ l := by
  cases l with
  | nil => exact absurd rfl h
  | cons a t => exact List.mem_cons_self a t

lemma getLastD_mem (l : List Point) (d : Point) (h : l ≠ []) : l.getLastD d ∈ l := by
  induction l generalizing d with
  | nil => exact absurd rfl h
  | cons a t ih =>
    cases t with
    | nil => simp [List.getLastD_eq_getLast?]
    | cons b u =>
      rw [List.getLastD_eq_getLast?, List.getLast?_cons_cons,
        ← List.getLastD_eq_getLast?]
      exact List.mem_cons_of_mem a (ih d (by simp))

lemma headD_append (l₁ l₂ : List Point) (d : Point) (h : l₁ ≠ []) :
    (l₁ ++ l₂).headD d = l₁.headD d := by
  cases l₁ with
  | nil => exact absurd rfl h
  | cons a t => rfl

lemma headD_dropLast (l : List Point) (d : Point) (h : 2 ≤ l.length) :
    l.dropLast.headD d = l.headD d := by
  cases l with
  | nil => simp at h
  | cons a t =>
    cases t with
    | nil => simp at h
    | cons b u => rfl

lemma headD_take (l : List Point) (n : ℕ) (d : Point) :
    (l.take (n+1)).headD d = l.headD d := by
  cases l with
  | nil => rfl
  | cons a t => rfl

lemma getLast?_drop (l : List Point) (i : ℕ) (hi : i < l.length) :
    (l.drop i).getLast? = l.getLast? := by
  induction l generalizing i with
  | nil => simp at hi
  | cons a t ih =>
    cases i with
    | zero => rfl
    | succ i =>
      cases t with
      | nil => simp at hi
      | cons b u =>
        rw [List.drop_succ_cons, List.getLast?_cons_cons]
        exact ih i (by simpa using hi)

lemma getLastD_drop (l : List Point) (i : ℕ) (d : Point) (hi : i < l.length) :
    (l.drop i).getLastD d = l.getLastD d := by
  rw [List.getLastD_eq_getLast?, List.getLastD_eq_getLast?, getLast?_drop l i hi]

lemma getLastD_append (l₁ l₂ : List Point) (d : Point) (h : l₂ ≠ []) :
    (l₁ ++ l₂).getLastD d = l₂.getLastD d := by
  rw [List.getLastD_eq_getLast?, List.getLastD_eq_getLast?,
    List.getLast?_append_of_ne_nil l₁ h]

lemma selStep_fold_inv (points : List Point) (a b : Point) (B : ℤ) :
    ∀ (l : List ℕ) (acc : ℤ × ℝ),
      (∀ i ∈ l, 1 ≤ (i:ℤ) ∧ (i:ℤ) ≤ B) →
      (acc.1 = -1 ∨ (1 ≤ acc.1 ∧ acc.1 ≤ B)) →
      ((l.foldl (selStep points a b) acc).1 = -1
        ∨ (1 ≤ (l.foldl (selStep points a b) acc).1
          ∧ (l.foldl (selStep points a b) acc).1 ≤ B)) := by
  intro l
  induction l with
  | nil => intro acc _ hacc; exact hacc
  | cons i t ih =>
    intro acc hl hacc
    rw [List.foldl_cons]
    apply ih _ (fun j hj => hl j (List.mem_cons_of_mem _ hj))
    simp only [selStep]
    split_ifs with hlt
    · exact Or.inr (hl i (List.mem_cons_self _ _))
    · exact hacc

lemma selStep_fold_le (points : List Point) (a b : Point) (tol : ℝ) :
    ∀ (l : List ℕ) (acc : ℤ × ℝ),
      (∀ i ∈ l, perpendicularDistance (points.getD i ⟨0, 0⟩) a b ≤ tol) →
      acc.2 ≤ tol →
      (l.foldl (selStep points a b) acc).2 ≤ tol := by
  intro l
  induction l with
  | nil => intro acc _ hacc; exact hacc
  | cons i t ih =>
    intro acc hl hacc
    rw [List.foldl_cons]
    apply ih _ (fun j hj => hl j (List.mem_cons_of_mem _ hj))
    simp only [selStep]
    split_ifs with hlt
    · exact hl i (List.mem_cons_self _ _)
    · exact hacc

lemma selectFarthest_bound (points : List Point) (a b : Point)
    (h3 : 3 ≤ points.length)
    (hne : (selectFarthest points a b).1 ≠ -1) :
    1 ≤ (selectFarthest points a b).1
    ∧ (selectFarthest points a b).1 ≤ (points.length : ℤ) - 2 := by
  have hinv := selStep_fold_inv points a b ((points.length : ℤ) - 2)
    (List.range' 1 (points.length - 2)) (-1, 0)
    (by
      intro i hi
      rw [List.mem_range'_1] at hi
      omega)
    (Or.inl rfl)
  rw [selectFarthest]
  rcases hinv with hcase | hcase
  · exact absurd (by rw [selectFarthest]; exact hcase) hne
  · exact hcase

lemma rdpAux_subset (tol : ℝ) :
    ∀ (fuel : ℕ) (points : List Point), points.length ≤ fuel →
      ∀ p ∈ rdpAux fuel points tol, p ∈ points := by
  intro fuel
  induction fuel with
  | zero =>
    intro points hf p hp
    exact hp
  | succ fuel ih =>
    intro points hf p hp
    simp only [rdpAux] at hp
    by_cases hlen : points.length < 3
    · rw [if_pos hlen] at hp
      exact hp
    · rw [if_neg hlen] at hp
      have h3 : 3 ≤ points.length := by omega
      by_cases hcond : tol < (selectFarthest points (points.headD ⟨0,0⟩) (points.getLastD ⟨0,0⟩)).2
          ∧ (selectFarthest points (points.headD ⟨0,0⟩) (points.getLastD ⟨0,0⟩)).1 ≠ -1
      · rw [if_pos hcond] at hp
        obtain ⟨hb1, hb2⟩ := selectFarthest_bound points _ _ h3 hcond.2
        have hi1 : 1 ≤ (selectFarthest points (points.headD ⟨0,0⟩) (points.getLastD ⟨0,0⟩)).1.toNat := by omega
        have hi2 : (selectFarthest points (points.headD ⟨0,0⟩) (points.getLastD ⟨0,0⟩)).1.toNat ≤ points.length - 2 := by omega
        rcases List.mem_append.mp hp with hp | hp
        · have hp' := (List.dropLast_sublist _).subset hp
          have hsub := ih (points.take ((selectFarthest points (points.headD ⟨0,0⟩) (points.getLastD ⟨0,0⟩)).1.toNat + 1))
            (by rw [List.length_take]; omega) p hp'
          exact List.take_subset _ _ hsub
        · have hsub := ih (points.drop (selectFarthest points (points.headD ⟨0,0⟩) (points.getLastD ⟨0,0⟩)).1.toNat)
            (by rw [List.length_drop]; omega) p hp
          exact List.drop_subset _ _ hsub
      · rw [if_neg hcond] at hp
        have hnil : points ≠ [] := by
          intro hcon
          rw [hcon] at h3
          simp at h3
        rcases List.mem_cons.mp hp with rfl | hp
        · exact headD_mem points _ hnil
        · rcases List.mem_singleton.mp hp with rfl
          exact getLastD_mem points _ hnil

lemma rdpAux_two_le (tol : ℝ) :
    ∀ (fuel : ℕ) (points : List Point), points.length ≤ fuel →
      2 ≤ points.length → 2 ≤ (rdpAux fuel points tol).length := by
  intro fuel
  induction fuel with
  | zero =>
    intro points hf h2
    exact (by omega : False).elim
  | succ fuel ih =>
    intro points hf h2
    simp only [rdpAux]
    by_cases hlen : points.length < 3
    · rw [if_pos hlen]
      exact h2
    · rw [if_neg hlen]
      have h3 : 3 ≤ points.length := by omega
      by_cases hcond : tol < (selectFarthest points (points.headD ⟨0,0⟩) (points.getLastD ⟨0,0⟩)).2
          ∧ (selectFarthest points (points.headD ⟨0,0⟩) (points.getLastD ⟨0,0⟩)).1 ≠ -1
      · rw [if_pos hcond]
        obtain ⟨hb1, hb2⟩ := selectFarthest_bound points _ _ h3 hcond.2
        have hL := ih (points.take ((selectFarthest points (points.headD ⟨0,0⟩) (points.getLastD ⟨0,0⟩)).1.toNat + 1))
          (by rw [List.length_take]; omega) (by rw [List.length_take]; omega)
        have hR := ih (points.drop (selectFarthest points (points.headD ⟨0,0⟩) (points.getLastD ⟨0,0⟩)).1.toNat)
          (by rw [List.length_drop]; omega) (by rw [List.length_drop]; omega)
        rw [List.length_append, List.length_dropLast]
        omega
      · rw [if_neg hcond]
        exact le_refl 2

lemma rdpAux_headD (tol : ℝ) :
    ∀ (fuel : ℕ) (points : List Point), points.length ≤ fuel →
      2 ≤ points.length →
      (rdpAux fuel points tol).headD ⟨0,0⟩ = points.headD ⟨0,0⟩ := by
  intro fuel
  induction fuel with
  | zero =>
    intro points hf h2
    exact (by omega : False).elim
  | succ fuel ih =>
    intro points hf h2
    simp only [rdpAux]
    by_cases hlen : points.length < 3
    · rw [if_pos hlen]
    · rw [if_neg hlen]
      have h3 : 3 ≤ points.length := by omega
      by_cases hcond : tol < (selectFarthest points (points.headD ⟨0,0⟩) (points.getLastD ⟨0,0⟩)).2
          ∧ (selectFarthest points (points.headD ⟨0,0⟩) (points.getLastD ⟨0,0⟩)).1 ≠ -1
      · rw [if_pos hcond]
        obtain ⟨hb1, hb2⟩ := selectFarthest_bound points _ _ h3 hcond.2
        have htk : (points.take ((selectFarthest points (points.headD ⟨0,0⟩) (points.getLastD ⟨0,0⟩)).1.toNat + 1)).length
            = (selectFarthest points (points.headD ⟨0,0⟩) (points.getLastD ⟨0,0⟩)).1.toNat + 1 := by
          rw [List.length_take]
          omega
        have hL2 : 2 ≤ (rdpAux fuel (points.take ((selectFarthest points (points.headD ⟨0,0⟩) (points.getLastD ⟨0,0⟩)).1.toNat + 1)) tol).length :=
          rdpAux_two_le tol fuel _ (by rw [htk]; omega) (by rw [htk]; omega)
        have hLh := ih (points.take ((selectFarthest points (points.headD ⟨0,0⟩) (points.getLastD ⟨0,0⟩)).1.toNat + 1))
          (by rw [htk]; omega) (by rw [htk]; omega)
        rw [headD_append _ _ _ (by
          intro hcon
          have h0 := List.length_eq_zero.mpr hcon
          rw [List.length_dropLast] at h0
          omega)]
        rw [headD_dropLast _ _ hL2, hLh, headD_take]
      · rw [if_neg hcond]
        rfl

lemma rdpAux_getLastD (tol : ℝ) :
    ∀ (fuel : ℕ) (points : List Point), points.length ≤ fuel →
      2 ≤ points.length →
      (rdpAux fuel points tol).getLastD ⟨0,0⟩ = points.getLastD ⟨0,0⟩ := by
  intro fuel
  induction fuel with
  | zero =>
    intro points hf h2
    exact (by omega : False).elim
  | succ fuel ih =>
    intro points hf h2
    simp only [rdpAux]
    by_cases hlen : points.length < 3
    · rw [if_pos hlen]
    · rw [if_neg hlen]
      have h3 : 3 ≤ points.length := by omega
      by_cases hcond : tol < (selectFarthest points (points.headD ⟨0,0⟩) (points.getLastD ⟨0,0⟩)).2
          ∧ (selectFarthest points (points.headD ⟨0,0⟩) (points.getLastD ⟨0,0⟩)).1 ≠ -1
      · rw [if_pos hcond]
        obtain ⟨hb1, hb2⟩ := selectFarthest_bound points _ _ h3 hcond.2
        have hdp : (points.drop (selectFarthest points (points.headD ⟨0,0⟩) (points.getLastD ⟨0,0⟩)).1.toNat).length
            = points.length - (selectFarthest points (points.headD ⟨0,0⟩) (points.getLastD ⟨0,0⟩)).1.toNat := by
          rw [List.length_drop]
        have hR2 : 2 ≤ (rdpAux fuel (points.drop (selectFarthest points (points.headD ⟨0,0⟩) (points.getLastD ⟨0,0⟩)).1.toNat) tol).length :=
          rdpAux_two_le tol fuel _ (by rw [hdp]; omega) (by rw [hdp]; omega)
        have hRl := ih (points.drop (selectFarthest points (points.headD ⟨0,0⟩) (points.getLastD ⟨0,0⟩)).1.toNat)
          (by rw [hdp]; omega) (by rw [hdp]; omega)
        rw [getLastD_append _ _ _ (by
          intro hcon
          have h0 := List.length_eq_zero.mpr hcon
          omega)]
        rw [hRl, getLastD_drop _ _ _ (by omega)]
      · rw [if_neg hcond]
        rfl

lemma rdpAux_collapse (tol : ℝ) :
    ∀ (fuel : ℕ) (points : List Point), points.length ≤ fuel →
      3 ≤ points.length → 0 ≤ tol →
      (∀ i : ℕ, 1 ≤ i → i < points.length - 1 →
        perpendicularDistance (points.getD i ⟨0,0⟩) (points.headD ⟨0,0⟩)
          (points.getLastD ⟨0,0⟩) ≤ tol) →
      rdpAux fuel points tol = [points.headD ⟨0,0⟩, points.getLastD ⟨0,0⟩] := by
  intro fuel
  induction fuel with
  | zero =>
    intro points hf h3 _ _
    exact (by omega : False).elim
  | succ fuel ih =>
    intro points hf h3 htol hdist
    simp only [rdpAux]
    rw [if_neg (by omega)]
    have hsel : (selectFarthest points (points.headD ⟨0,0⟩) (points.getLastD ⟨0,0⟩)).2 ≤ tol := by
      rw [selectFarthest]
      apply selStep_fold_le
      · intro i hi
        rw [List.mem_range'_1] at hi
        exact hdist i hi.1 (by omega)
      · exact htol
    rw [if_neg (by
      intro hcon
      exact absurd hcon.1 (not_lt.mpr hsel))]

lemma perpC6c : perpendicularDistance (⟨10,10⟩ : Point) ⟨0,0⟩ ⟨20,0⟩ = 10 := by
  have hs : Real.sqrt 400 = 20 := by
    rw [show (400:ℝ) = 20^2 by norm_num]
    exact Real.sqrt_sq (by norm_num)
  simp only [perpendicularDistance]
  norm_num
  rw [hs]
  norm_num

lemma selC6c :
    selectFarthest [(⟨0,0⟩:Point),⟨10,10⟩,⟨20,0⟩] ⟨0,0⟩ ⟨20,0⟩ = (1, 10) := by
  rw [selectFarthest]
  rw [show ([(⟨0,0⟩:Point),⟨10,10⟩,⟨20,0⟩]).length - 2 = 1 from rfl]
  rw [show List.range' 1 1 = [1] from rfl]
  rw [List.foldl_cons, List.foldl_nil]
  simp only [selStep]
  rw [show ([(⟨0,0⟩:Point),⟨10,10⟩,⟨20,0⟩]).getD 1 ⟨0,0⟩ = ⟨10,10⟩ from rfl]
  rw [perpC6c]
  rw [if_pos (by norm_num : ((-1:ℤ), (0:ℝ)).2 < 10)]
  norm_num

/-- C6 counterexample: on three points whose middle point is far from
the endpoint segment, rdpSimplify with tolerance 3 returns the entire
input, so the result is not a strict subset of the input points. -/
theorem C6_counterexample :
    3 ≤ ptsC6c.length ∧ rdpSimplify ptsC6c 3 = ptsC6c := by
  refine ⟨by decide, ?_⟩
  show rdpSimplify [(⟨0,0⟩:Point),⟨10,10⟩,⟨20,0⟩] 3 = [(⟨0,0⟩:Point),⟨10,10⟩,⟨20,0⟩]
  rw [rdpSimplify, show ([(⟨0,0⟩:Point),⟨10,10⟩,⟨20,0⟩]).length = 2 + 1 from rfl]
  simp only [rdpAux]
  rw [show ([(⟨0,0⟩:Point),⟨10,10⟩,⟨20,0⟩]).headD ⟨0,0⟩ = ⟨0,0⟩ from rfl,
    show ([(⟨0,0⟩:Point),⟨10,10⟩,⟨20,0⟩]).getLastD ⟨0,0⟩ = ⟨20,0⟩ from rfl, selC6c]
  norm_num

/-- C6 amended: for every input of length at least 3 with tolerance 3,
the RDP result is a subset of the input points (not necessarily strict),
has length at least 2, keeps the first and last input point as its first
and last elements, and collapses to exactly the two endpoints when no
interior point lies farther than the tolerance from the endpoint
segment. -/
theorem C6_rdp_amended (pts : List Point) (h3 : 3 ≤ pts.length) :
    (∀ p ∈ rdpSimplify pts 3, p ∈ pts)
    ∧ 2 ≤ (rdpSimplify pts 3).length
    ∧ (rdpSimplify pts 3).headD ⟨0,0⟩ = pts.headD ⟨0,0⟩
    ∧ (rdpSimplify pts 3).getLastD ⟨0,0⟩ = pts.getLastD ⟨0,0⟩
    ∧ ((∀ i : ℕ, 1 ≤ i → i < pts.length - 1 →
          perpendicularDistance (pts.getD i ⟨0,0⟩) (pts.headD ⟨0,0⟩)
            (pts.getLastD ⟨0,0⟩) ≤ 3) →
        rdpSimplify pts 3 = [pts.headD ⟨0,0⟩, pts.getLastD ⟨0,0⟩]) :=
  ⟨rdpAux_subset 3 pts.length pts le_rfl,
   rdpAux_two_le 3 pts.length pts le_rfl (by omega),
   rdpAux_headD 3 pts.length pts le_rfl (by omega),
   rdpAux_getLastD 3 pts.length pts le_rfl (by omega),
   fun hdist => rdpAux_collapse 3 pts.length pts le_rfl h3 (by norm_num) hdist⟩

/-- Witness for C6 at a concrete collinear three-point input. -/
theorem C6_witness :
    3 ≤ ptsC6.length
    ∧ (∀ p ∈ rdpSimplify ptsC6 3, p ∈ ptsC6)
    ∧ 2 ≤ (rdpSimplify ptsC6 3).length
    ∧ (rdpSimplify ptsC6 3).headD ⟨0,0⟩ = ptsC6.headD ⟨0,0⟩
    ∧ (rdpSimplify ptsC6 3).getLastD ⟨0,0⟩ = ptsC6.getLastD ⟨0,0⟩
    ∧ rdpSimplify ptsC6 3 = [⟨0,0⟩, ⟨2,0⟩] := by
  have h := C6_rdp_amended ptsC6 (by decide)
  have hdist : ∀ i : ℕ, 1 ≤ i → i < ptsC6.length - 1 →
      perpendicularDistance (ptsC6.getD i ⟨0,0⟩) (ptsC6.headD ⟨0,0⟩)
        (ptsC6.getLastD ⟨0,0⟩) ≤ 3 := by
    intro i h1 h2
    rw [show ptsC6.length = 3 from rfl] at h2
    have hi : i = 1 := by omega
    subst hi
    rw [show ptsC6.getD 1 ⟨0,0⟩ = ⟨1,0⟩ from rfl,
      show ptsC6.headD ⟨0,0⟩ = ⟨0,0⟩ from rfl,
      show ptsC6.getLastD ⟨0,0⟩ = ⟨2,0⟩ from rfl]
    simp only [perpendicularDistance]
    norm_num
  have hcol := h.2.2.2.2 hdist
  exact ⟨by decide, h.1, h.2.1, h.2.2.1, h.2.2.2.1, by rw [hcol]; rfl⟩

lemma point_ext (p q : Point) (hx : p.x = q.x) (hy : p.y = q.y) : p = q := by
  cases p
  cases q
  simp only [Point.mk.injEq]
  exact ⟨hx, hy⟩

lemma adjacent_symm (p q : Point) (h : adjacent p q) : adjacent q p := by
  obtain ⟨hne, hx, hy⟩ := h
  refine ⟨fun he => hne he.symm, by omega, by omega⟩

lemma dir_adjacent (p : Point) (d : ℤ × ℤ) (hd : d ∈ dirs) :
    adjacent p ⟨p.x + d.1, p.y + d.2⟩ := by
  cases p with
  | mk a b =>
    simp only [dirs, List.mem_cons, List.not_mem_nil, or_false] at hd
    rcases hd with rfl|rfl|rfl|rfl|rfl|rfl|rfl|rfl <;>
      · refine ⟨?_, ?_, ?_⟩
        · intro he
          simp only [Point.mk.injEq] at he
          omega
        · show ((a + _) - a).natAbs ≤ 1
          omega
        · show ((b + _) - b).natAbs ≤ 1
          omega

lemma adjacent_exists_dir (p q : Point) (h : adjacent p q) :
    ∃ d ∈ dirs, q = ⟨p.x + d.1, p.y + d.2⟩ := by
  obtain ⟨hne, hx, hy⟩ := h
  have hne' : ¬(q.x - p.x = 0 ∧ q.y - p.y = 0) := by
    intro ⟨h1, h2⟩
    exact hne (point_ext p q (by omega) (by omega))
  have hx3 : q.x - p.x = -1 ∨ q.x - p.x = 0 ∨ q.x - p.x = 1 := by omega
  have hy3 : q.y - p.y = -1 ∨ q.y - p.y = 0 ∨ q.y - p.y = 1 := by omega
  rcases hx3 with h1|h1|h1 <;> rcases hy3 with h2|h2|h2
  · exact ⟨(-1,-1), by simp [dirs], point_ext q _ (show q.x = p.x + -1 from by omega)
      (show q.y = p.y + -1 from by omega)⟩
  · exact ⟨(-1,0), by simp [dirs], point_ext q _ (show q.x = p.x + -1 from by omega)
      (show q.y = p.y + 0 from by omega)⟩
  · exact ⟨(-1,1), by simp [dirs], point_ext q _ (show q.x = p.x + -1 from by omega)
      (show q.y = p.y + 1 from by omega)⟩
  · exact ⟨(0,-1), by simp [dirs], point_ext q _ (show q.x = p.x + 0 from by omega)
      (show q.y = p.y + -1 from by omega)⟩
  · exact absurd ⟨h1, h2⟩ hne'
  · exact ⟨(0,1), by simp [dirs], point_ext q _ (show q.x = p.x + 0 from by omega)
      (show q.y = p.y + 1 from by omega)⟩
  · exact ⟨(1,-1), by simp [dirs], point_ext q _ (show q.x = p.x + 1 from by omega)
      (show q.y = p.y + -1 from by omega)⟩
  · exact ⟨(1,0), by simp [dirs], point_ext q _ (show q.x = p.x + 1 from by omega)
      (show q.y = p.y + 0 from by omega)⟩
  · exact ⟨(1,1), by simp [dirs], point_ext q _ (show q.x = p.x + 1 from by omega)
      (show q.y = p.y + 1 from by omega)⟩

lemma pIdx_lt_of_bounds (w h : ℕ) (p : Point) (h1 : 0 ≤ p.x) (h2 : p.x < (w:ℤ))
    (h3 : 0 ≤ p.y) (h4 : p.y < (h:ℤ)) : pIdx w p < w*h := by
  have hmul : (p.y + 1) * (w:ℤ) ≤ (h:ℤ) * (w:ℤ) :=
    mul_le_mul_of_nonneg_right (by omega) (Int.ofNat_nonneg w)
  rw [add_mul, one_mul] at hmul
  have hlt : p.y * (w:ℤ) + p.x < ((w*h : ℕ) : ℤ) := by
    have e : ((w*h : ℕ) : ℤ) = (h:ℤ) * (w:ℤ) := by push_cast; ring
    rw [e]
    linarith
  have hwh : 0 < w*h := Nat.mul_pos (by omega) (by omega)
  unfold pIdx
  omega

lemma pIdx_inj_of_bounds (w h : ℕ) (p q : Point)
    (hp1 : 0 ≤ p.x) (hp2 : p.x < (w:ℤ)) (hp3 : 0 ≤ p.y) (hp4 : p.y < (h:ℤ))
    (hq1 : 0 ≤ q.x) (hq2 : q.x < (w:ℤ)) (hq3 : 0 ≤ q.y) (hq4 : q.y < (h:ℤ))
    (heq : pIdx w p = pIdx w q) : p = q := by
  unfold pIdx at heq
  have hA : 0 ≤ p.y * (w:ℤ) := mul_nonneg hp3 (Int.ofNat_nonneg w)
  have hB : 0 ≤ q.y * (w:ℤ) := mul_nonneg hq3 (Int.ofNat_nonneg w)
  have h0 : p.y * (w:ℤ) + p.x = q.y * (w:ℤ) + q.x := by omega
  have hy : p.y = q.y := by
    rcases lt_trichotomy p.y q.y with hlt | he | hgt
    · exfalso
      have hstep : (p.y + 1) * (w:ℤ) ≤ q.y * (w:ℤ) :=
        mul_le_mul_of_nonneg_right (by omega) (Int.ofNat_nonneg w)
      rw [add_mul, one_mul] at hstep
      linarith
    · exact he
    · exfalso
      have hstep : (q.y + 1) * (w:ℤ) ≤ p.y * (w:ℤ) :=
        mul_le_mul_of_nonneg_right (by omega) (Int.ofNat_nonneg w)
      rw [add_mul, one_mul] at hstep
      linarith
  have hx : p.x = q.x := by
    rw [hy] at h0
    exact add_left_cancel h0
  exact point_ext p q hx hy

lemma good_pIdx_inj (mask : ℕ → Bool) (w h : ℕ) (p q : Point)
    (hp : goodPoint mask w h p) (hq : goodPoint mask w h q)
    (heq : pIdx w p = pIdx w q) : p = q :=
  pIdx_inj_of_bounds w h p q hp.1 hp.2.1 hp.2.2.1 hp.2.2.2.1
    hq.1 hq.2.1 hq.2.2.1 hq.2.2.2.1 heq

lemma good_pIdx_lt (mask : ℕ → Bool) (w h : ℕ) (p : Point)
    (hp : goodPoint mask w h p) : pIdx w p < w*h :=
  pIdx_lt_of_bounds w h p hp.1 hp.2.1 hp.2.2.1 hp.2.2.2.1

lemma pIdx_natCast (w x y : ℕ) : pIdx w ⟨(x:ℤ), (y:ℤ)⟩ = y * w + x := by
  show ((y:ℤ) * (w:ℤ) + (x:ℤ)).toNat = y * w + x
  rw [show (y:ℤ) * (w:ℤ) + (x:ℤ) = ((y * w + x : ℕ) : ℤ) from by push_cast; ring,
    Int.toNat_natCast]

lemma unmarked_cons (w h i : ℕ) (visited : List ℕ) (hi : i < w*h) (hni : i ∉ visited) :
    unmarked w h (i :: visited) + 1 = unmarked w h visited := by
  have he : (Finset.range (w*h)).filter (fun j => j ∉ (i :: visited))
      = ((Finset.range (w*h)).filter (fun j => j ∉ visited)).erase i := by
    ext j
    simp only [Finset.mem_filter, Finset.mem_erase, Finset.mem_range, List.mem_cons]
    constructor
    · intro ⟨hj, hjm⟩
      push_neg at hjm
      exact ⟨hjm.1, hj, hjm.2⟩
    · intro ⟨hji, hj, hjm⟩
      refine ⟨hj, ?_⟩
      push_neg
      exact ⟨hji, hjm⟩
  have hmem : i ∈ (Finset.range (w*h)).filter (fun j => j ∉ visited) := by
    simp only [Finset.mem_filter, Finset.mem_range]
    exact ⟨hi, hni⟩
  have hcard := Finset.card_erase_of_mem hmem
  have hpos : 0 < ((Finset.range (w*h)).filter (fun j => j ∉ visited)).card :=
    Finset.card_pos.mpr ⟨i, hmem⟩
  unfold unmarked
  rw [he, hcard]
  omega

lemma reach_good (mask : ℕ → Bool) (w h : ℕ) (a b : Point)
    (ha : goodPoint mask w h a) (hab : reach mask w h a b) : goodPoint mask w h b := by
  induction hab with
  | refl => exact ha
  | tail _ hstep _ => exact hstep.1

lemma reach_symm (mask : ℕ → Bool) (w h : ℕ) (a b : Point)
    (ha : goodPoint mask w h a) (hab : reach mask w h a b) : reach mask w h b a := by
  induction hab with
  | refl => exact Relation.ReflTransGen.refl
  | tail hmid hstep ih =>
    exact Relation.ReflTransGen.head
      ⟨reach_good mask w h a _ ha hmid, adjacent_symm _ _ hstep.2⟩ ih

lemma reach_closed_mem (mask : ℕ → Bool) (w h : ℕ) (c : List Point)
    (hclosed : ∀ p ∈ c, ∀ q, goodPoint mask w h q → adjacent p q → q ∈ c)
    (a b : Point) (hac : a ∈ c) (hab : reach mask w h a b) : b ∈ c := by
  induction hab with
  | refl => exact hac
  | tail _ hstep ih => exact hclosed _ ih _ hstep.1 hstep.2

lemma component_ext (mask : ℕ → Bool) (w h : ℕ) (b c : List Point)
    (hb : isComponent mask w h b) (hc : isComponent mask w h c)
    (p : Point) (hpb : p ∈ b) (hpc : p ∈ c) : ∀ q, q ∈ b ↔ q ∈ c := by
  intro q
  constructor
  · intro hq
    exact reach_closed_mem mask w h c hc.2.2.2.1 p q hpc (hb.2.2.2.2 p hpb q hq)
  · intro hq
    exact reach_closed_mem mask w h b hb.2.2.2.1 p q hpb (hc.2.2.2.2 p hpc q hq)

lemma scanPairs_mem_intro (w h x y : ℕ) (hx : x < w) (hy : y < h) :
    (x, y) ∈ scanPairs w h := by
  simp only [scanPairs, List.mem_flatMap, List.mem_map, List.mem_range]
  exact ⟨y, hy, x, hx, rfl⟩

lemma floodStep_cases (mask : ℕ → Bool) (w h : ℕ) (p : Point)
    (acc : List Point × List ℕ) (d : ℤ × ℤ) :
    (floodStep mask w h p acc d = acc
      ∧ (goodPoint mask w h ⟨p.x + d.1, p.y + d.2⟩ →
          pIdx w ⟨p.x + d.1, p.y + d.2⟩ ∈ acc.2))
    ∨ (goodPoint mask w h ⟨p.x + d.1, p.y + d.2⟩
        ∧ pIdx w ⟨p.x + d.1, p.y + d.2⟩ ∉ acc.2
        ∧ floodStep mask w h p acc d
          = (⟨p.x + d.1, p.y + d.2⟩ :: acc.1,
             pIdx w ⟨p.x + d.1, p.y + d.2⟩ :: acc.2)) := by
  simp only [floodStep]
  split_ifs with h1 h2
  · exact Or.inr ⟨⟨h1.1, h1.2.2.1, h1.2.1, h1.2.2.2, h2.2⟩, h2.1, rfl⟩
  · refine Or.inl ⟨rfl, fun hg => ?_⟩
    by_contra hni
    exact h2 ⟨hni, hg.2.2.2.2⟩
  · exact Or.inl ⟨rfl, fun hg => absurd ⟨hg.1, hg.2.2.1, hg.2.1, hg.2.2.2.1⟩ h1⟩

lemma fold_mono (mask : ℕ → Bool) (w h : ℕ) (p : Point) :
    ∀ (ds : List (ℤ × ℤ)) (acc : List Point × List ℕ),
      (∀ q ∈ acc.1, q ∈ (ds.foldl (floodStep mask w h p) acc).1)
      ∧ (∀ i ∈ acc.2, i ∈ (ds.foldl (floodStep mask w h p) acc).2) := by
  intro ds
  induction ds with
  | nil => intro acc; exact ⟨fun q hq => hq, fun i hi => hi⟩
  | cons d ds ih =>
    intro acc
    rw [List.foldl_cons]
    rcases floodStep_cases mask w h p acc d with ⟨heq, -⟩ | ⟨-, -, heq⟩ <;> rw [heq]
    · exact ih acc
    · constructor
      · intro q hq
        exact (ih _).1 q (List.mem_cons_of_mem _ hq)
      · intro i hi
        exact (ih _).2 i (List.mem_cons_of_mem _ hi)

lemma fold_stack_new (mask : ℕ → Bool) (w h : ℕ) (p : Point) :
    ∀ (ds : List (ℤ × ℤ)) (acc : List Point × List ℕ),
      (∀ d ∈ ds, d ∈ dirs) →
      ∀ q ∈ (ds.foldl (floodStep mask w h p) acc).1,
        q ∈ acc.1 ∨ (goodPoint mask w h q ∧ adjacent p q ∧ pIdx w q ∉ acc.2) := by
  intro ds
  induction ds with
  | nil => intro acc _ q hq; exact Or.inl hq
  | cons d ds ih =>
    intro acc hds q hq
    rw [List.foldl_cons] at hq
    rcases floodStep_cases mask w h p acc d with ⟨heq, -⟩ | ⟨hgood, hfresh, heq⟩ <;>
      rw [heq] at hq
    · exact ih acc (fun d' hd' => hds d' (List.mem_cons_of_mem _ hd')) q hq
    · rcases ih _ (fun d' hd' => hds d' (List.mem_cons_of_mem _ hd')) q hq
        with hq' | ⟨hg, ha, hf⟩
      · rcases List.mem_cons.mp hq' with rfl | hq''
        · exact Or.inr ⟨hgood, dir_adjacent p d (hds d (List.mem_cons_self _ _)), hfresh⟩
        · exact Or.inl hq''
      · exact Or.inr ⟨hg, ha, fun hc => hf (List.mem_cons_of_mem _ hc)⟩

lemma fold_marks_new (mask : ℕ → Bool) (w h : ℕ) (p : Point) :
    ∀ (ds : List (ℤ × ℤ)) (acc : List Point × List ℕ),
      ∀ i ∈ (ds.foldl (floodStep mask w h p) acc).2,
        i ∈ acc.2 ∨ ∃ q ∈ (ds.foldl (floodStep mask w h p) acc).1, pIdx w q = i := by
  intro ds
  induction ds with
  | nil => intro acc i hi; exact Or.inl hi
  | cons d ds ih =>
    intro acc i hi
    rw [List.foldl_cons] at hi ⊢
    rcases floodStep_cases mask w h p acc d with ⟨heq, -⟩ | ⟨hgood, hfresh, heq⟩ <;>
      rw [heq] at hi ⊢
    · exact ih acc i hi
    · rcases ih _ i hi with hi' | ⟨q, hqmem, hqi⟩
      · rcases List.mem_cons.mp hi' with rfl | hi''
        · exact Or.inr ⟨⟨p.x + d.1, p.y + d.2⟩,
            (fold_mono mask w h p ds _).1 _ (List.mem_cons_self _ _), rfl⟩
        · exact Or.inl hi''
      · exact Or.inr ⟨q, hqmem, hqi⟩

lemma fold_pack (mask : ℕ → Bool) (w h : ℕ) (p : Point) (D : List Point) :
    ∀ (ds : List (ℤ × ℤ)) (acc : List Point × List ℕ),
      (D ++ acc.1).Nodup → (∀ r ∈ D ++ acc.1, pIdx w r ∈ acc.2) →
      ((D ++ (ds.foldl (floodStep mask w h p) acc).1).Nodup
        ∧ ∀ r ∈ D ++ (ds.foldl (floodStep mask w h p) acc).1,
            pIdx w r ∈ (ds.foldl (floodStep mask w h p) acc).2) := by
  intro ds
  induction ds with
  | nil => intro acc h1 h2; exact ⟨h1, h2⟩
  | cons d ds ih =>
    intro acc hnodup hmarks
    rw [List.foldl_cons]
    rcases floodStep_cases mask w h p acc d with ⟨heq, -⟩ | ⟨hgood, hfresh, heq⟩ <;> rw [heq]
    · exact ih acc hnodup hmarks
    · apply ih
      · show (D ++ ⟨p.x + d.1, p.y + d.2⟩ :: acc.1).Nodup
        rw [(List.perm_middle).nodup_iff, List.nodup_cons]
        exact ⟨fun hc => hfresh (hmarks _ hc), hnodup⟩
      · intro r hr
        rcases List.mem_append.mp hr with hrD | hrs
        · exact List.mem_cons_of_mem _ (hmarks r (List.mem_append_left _ hrD))
        · rcases List.mem_cons.mp hrs with rfl | hr'
          · exact List.mem_cons_self _ _
          · exact List.mem_cons_of_mem _ (hmarks r (List.mem_append_right _ hr'))

lemma fold_measure (mask : ℕ → Bool) (w h : ℕ) (p : Point) :
    ∀ (ds : List (ℤ × ℤ)) (acc : List Point × List ℕ),
      unmarked w h (ds.foldl (floodStep mask w h p) acc).2
          + (ds.foldl (floodStep mask w h p) acc).1.length
        = unmarked w h acc.2 + acc.1.length := by
  intro ds
  induction ds with
  | nil => intro acc; rfl
  | cons d ds ih =>
    intro acc
    rw [List.foldl_cons]
    rcases floodStep_cases mask w h p acc d with ⟨heq, -⟩ | ⟨hgood, hfresh, heq⟩ <;> rw [heq]
    · exact ih acc
    · have hih := ih (⟨p.x + d.1, p.y + d.2⟩ :: acc.1,
        pIdx w ⟨p.x + d.1, p.y + d.2⟩ :: acc.2)
      have hu := unmarked_cons w h (pIdx w ⟨p.x + d.1, p.y + d.2⟩) acc.2
        (good_pIdx_lt mask w h _ hgood) hfresh
      simp only [List.length_cons] at hih
      omega

lemma fold_neighbors (mask : ℕ → Bool) (w h : ℕ) (p : Point) :
    ∀ (ds : List (ℤ × ℤ)) (acc : List Point × List ℕ),
      ∀ d ∈ ds, goodPoint mask w h ⟨p.x + d.1, p.y + d.2⟩ →
        pIdx w ⟨p.x + d.1, p.y + d.2⟩ ∈ (ds.foldl (floodStep mask w h p) acc).2 := by
  intro ds
  induction ds with
  | nil => intro acc d hd; exact (List.not_mem_nil d hd).elim
  | cons d ds ih =>
    intro acc d' hd' hg
    rw [List.foldl_cons]
    rcases List.mem_cons.mp hd' with rfl | hd''
    · rcases floodStep_cases mask w h p acc d' with ⟨heq, hreason⟩ | ⟨hgood, hfresh, heq⟩ <;>
        rw [heq]
      · exact (fold_mono mask w h p ds acc).2 _ (hreason hg)
      · exact (fold_mono mask w h p ds _).2 _ (List.mem_cons_self _ _)
    · exact ih _ d' hd'' hg

lemma floodLoop_master (mask : ℕ → Bool) (w h : ℕ) (seed : Point) (oldV : List ℕ) :
    ∀ (fuel : ℕ) (stack blob : List Point) (visited : List ℕ),
      (∀ i ∈ oldV, i ∈ visited) →
      (∀ q ∈ blob ++ stack, goodPoint mask w h q) →
      (blob ++ stack).Nodup →
      (∀ q ∈ blob ++ stack, pIdx w q ∈ visited) →
      (∀ p ∈ blob, ∀ q, goodPoint mask w h q → adjacent p q → pIdx w q ∈ visited) →
      (∀ q ∈ blob ++ stack, reach mask w h seed q) →
      (∀ i ∈ visited, i ∈ oldV ∨ ∃ r ∈ blob ++ stack, pIdx w r = i) →
      (∀ q ∈ blob ++ stack, pIdx w q ∉ oldV) →
      unmarked w h visited + stack.length ≤ fuel →
      (∀ q ∈ (floodLoop mask w h fuel stack visited blob).1, goodPoint mask w h q)
      ∧ (floodLoop mask w h fuel stack visited blob).1.Nodup
      ∧ (∀ q ∈ blob ++ stack, q ∈ (floodLoop mask w h fuel stack visited blob).1)
      ∧ (∀ q ∈ (floodLoop mask w h fuel stack visited blob).1,
          pIdx w q ∈ (floodLoop mask w h fuel stack visited blob).2)
      ∧ (∀ p ∈ (floodLoop mask w h fuel stack visited blob).1,
          ∀ q, goodPoint mask w h q → adjacent p q →
            pIdx w q ∈ (floodLoop mask w h fuel stack visited blob).2)
      ∧ (∀ q ∈ (floodLoop mask w h fuel stack visited blob).1, reach mask w h seed q)
      ∧ (∀ i ∈ (floodLoop mask w h fuel stack visited blob).2,
          i ∈ oldV ∨ ∃ r ∈ (floodLoop mask w h fuel stack visited blob).1, pIdx w r = i)
      ∧ (∀ q ∈ (floodLoop mask w h fuel stack visited blob).1, pIdx w q ∉ oldV)
      ∧ (∀ i ∈ visited, i ∈ (floodLoop mask w h fuel stack visited blob).2) := by
  intro fuel
  induction fuel with
  | zero =>
    intro stack blob visited h0 h1 h2 h3 h4 h5 h6 h7 h8
    have hstack : stack = [] := by
      rcases stack with _ | ⟨p, rest⟩
      · rfl
      · simp only [List.length_cons] at h8
        omega
    subst hstack
    simp only [floodLoop]
    simp only [List.append_nil] at h1 h2 h3 h5 h6 h7
    exact ⟨h1, h2, fun q hq => by simpa using hq, h3, h4, h5, h6, h7, fun i hi => hi⟩
  | succ fuel ih =>
    intro stack blob visited h0 h1 h2 h3 h4 h5 h6 h7 h8
    rcases stack with _ | ⟨p, rest⟩
    · simp only [floodLoop]
      simp only [List.append_nil] at h1 h2 h3 h5 h6 h7
      exact ⟨h1, h2, fun q hq => by simpa using hq, h3, h4, h5, h6, h7, fun i hi => hi⟩
    · simp only [floodLoop]
      set FF := dirs.foldl (floodStep mask w h p) (rest, visited) with hFF
      have hpmem : p ∈ blob ++ p :: rest := List.mem_append_right _ (List.mem_cons_self _ _)
      have hpgood : goodPoint mask w h p := h1 p hpmem
      have hmono1 : ∀ q ∈ rest, q ∈ FF.1 := (fold_mono mask w h p dirs (rest, visited)).1
      have hmono2 : ∀ i ∈ visited, i ∈ FF.2 := (fold_mono mask w h p dirs (rest, visited)).2
      have hsnew : ∀ q ∈ FF.1,
          q ∈ rest ∨ (goodPoint mask w h q ∧ adjacent p q ∧ pIdx w q ∉ visited) :=
        fold_stack_new mask w h p dirs (rest, visited) (fun d hd => hd)
      have hmnew : ∀ i ∈ FF.2, i ∈ visited ∨ ∃ q ∈ FF.1, pIdx w q = i :=
        fold_marks_new mask w h p dirs (rest, visited)
      have hmeas : unmarked w h FF.2 + FF.1.length = unmarked w h visited + rest.length :=
        fold_measure mask w h p dirs (rest, visited)
      have hnb : ∀ d ∈ dirs, goodPoint mask w h ⟨p.x + d.1, p.y + d.2⟩ →
          pIdx w ⟨p.x + d.1, p.y + d.2⟩ ∈ FF.2 :=
        fold_neighbors mask w h p dirs (rest, visited)
      have hpack : ((blob ++ [p]) ++ FF.1).Nodup
          ∧ ∀ r ∈ (blob ++ [p]) ++ FF.1, pIdx w r ∈ FF.2 :=
        fold_pack mask w h p (blob ++ [p]) dirs (rest, visited)
          (by rw [List.append_assoc, List.singleton_append]; exact h2)
          (by
            intro r hr
            apply h3
            rw [List.append_assoc, List.singleton_append] at hr
            exact hr)
      have hmemmap : ∀ q ∈ blob ++ p :: rest, q ∈ (blob ++ [p]) ++ FF.1 := by
        intro q hq
        rcases List.mem_append.mp hq with hqb | hqs
        · exact List.mem_append_left _ (List.mem_append_left _ hqb)
        · rcases List.mem_cons.mp hqs with rfl | hqr
          · exact List.mem_append_left _ (List.mem_append_right _ (List.mem_singleton.mpr rfl))
          · exact List.mem_append_right _ (hmono1 q hqr)
      have h0' : ∀ i ∈ oldV, i ∈ FF.2 := fun i hi => hmono2 i (h0 i hi)
      have h1' : ∀ q ∈ (blob ++ [p]) ++ FF.1, goodPoint mask w h q := by
        intro q hq
        rcases List.mem_append.mp hq with hqb | hqs
        · rcases List.mem_append.mp hqb with hqb' | hqp
          · exact h1 q (List.mem_append_left _ hqb')
          · rcases List.mem_singleton.mp hqp with rfl
            exact hpgood
        · rcases hsnew q hqs with hqr | ⟨hg, -, -⟩
          · exact h1 q (List.mem_append_right _ (List.mem_cons_of_mem _ hqr))
          · exact hg
      have h4' : ∀ p₀ ∈ blob ++ [p], ∀ q, goodPoint mask w h q → adjacent p₀ q →
          pIdx w q ∈ FF.2 := by
        intro p₀ hp₀ q hqg hadj
        rcases List.mem_append.mp hp₀ with hpb | hpp
        · exact hmono2 _ (h4 p₀ hpb q hqg hadj)
        · rcases List.mem_singleton.mp hpp with rfl
          obtain ⟨d, hd, rfl⟩ := adjacent_exists_dir p₀ q hadj
          exact hnb d hd hqg
      have h5' : ∀ q ∈ (blob ++ [p]) ++ FF.1, reach mask w h seed q := by
        intro q hq
        rcases List.mem_append.mp hq with hqb | hqs
        · rcases List.mem_append.mp hqb with hqb' | hqp
          · exact h5 q (List.mem_append_left _ hqb')
          · rcases List.mem_singleton.mp hqp with rfl
            exact h5 q hpmem
        · rcases hsnew q hqs with hqr | ⟨hg, ha, -⟩
          · exact h5 q (List.mem_append_right _ (List.mem_cons_of_mem _ hqr))
          · exact Relation.ReflTransGen.tail (h5 p hpmem) ⟨hg, ha⟩
      have h6' : ∀ i ∈ FF.2, i ∈ oldV ∨ ∃ r ∈ (blob ++ [p]) ++ FF.1, pIdx w r = i := by
        intro i hi
        rcases hmnew i hi with hiv | ⟨q, hqmem, hqi⟩
        · rcases h6 i hiv with hio | ⟨r, hrmem, hri⟩
          · exact Or.inl hio
          · exact Or.inr ⟨r, hmemmap r hrmem, hri⟩
        · exact Or.inr ⟨q, List.mem_append_right _ hqmem, hqi⟩
      have h7' : ∀ q ∈ (blob ++ [p]) ++ FF.1, pIdx w q ∉ oldV := by
        intro q hq
        rcases List.mem_append.mp hq with hqb | hqs
        · rcases List.mem_append.mp hqb with hqb' | hqp
          · exact h7 q (List.mem_append_left _ hqb')
          · rcases List.mem_singleton.mp hqp with rfl
            exact h7 q hpmem
        · rcases hsnew q hqs with hqr | ⟨-, -, hf⟩
          · exact h7 q (List.mem_append_right _ (List.mem_cons_of_mem _ hqr))
          · exact fun hc => hf (h0 _ hc)
      have h8' : unmarked w h FF.2 + FF.1.length ≤ fuel := by
        simp only [List.length_cons] at h8
        omega
      have HIH := ih FF.1 (blob ++ [p]) FF.2 h0' h1' hpack.1 hpack.2 h4' h5' h6' h7' h8'
      refine ⟨HIH.1, HIH.2.1, ?_, HIH.2.2.2.1, HIH.2.2.2.2.1, HIH.2.2.2.2.2.1,
        HIH.2.2.2.2.2.2.1, HIH.2.2.2.2.2.2.2.1, ?_⟩
      · intro q hq
        exact HIH.2.2.1 q (hmemmap q hq)
      · intro i hi
        exact HIH.2.2.2.2.2.2.2.2 i (hmono2 i hi)

lemma scanAux_master (mask : ℕ → Bool) (w h : ℕ) :
    ∀ (l : List (ℕ × ℕ)) (visited : List ℕ) (acc : List (List Point)),
      (∀ xy ∈ l, xy.1 < w ∧ xy.2 < h) →
      (∀ b ∈ acc, isComponent mask w h b) →
      (∀ i ∈ visited, ∃ b ∈ acc, ∃ r ∈ b, pIdx w r = i) →
      (∀ b ∈ acc, ∀ r ∈ b, pIdx w r ∈ visited) →
      List.Pairwise (fun b₁ b₂ => ∀ p ∈ b₁, p ∉ b₂) acc →
      (∀ b ∈ scanAux mask w h l visited acc, isComponent mask w h b)
      ∧ (∀ b ∈ acc, b ∈ scanAux mask w h l visited acc)
      ∧ (∀ xy ∈ l, goodPoint mask w h ⟨(xy.1 : ℤ), (xy.2 : ℤ)⟩ →
          ∃ b ∈ scanAux mask w h l visited acc, (⟨(xy.1 : ℤ), (xy.2 : ℤ)⟩ : Point) ∈ b) := by
  intro l
  induction l with
  | nil =>
    intro visited acc hl hI1 hI2a hI2b hI3
    exact ⟨hI1, fun b hb => hb, fun xy hxy => (List.not_mem_nil xy hxy).elim⟩
  | cons xy rest ih =>
    intro visited acc hl hI1 hI2a hI2b hI3
    obtain ⟨x, y⟩ := xy
    have hxw : x < w := (hl (x, y) (List.mem_cons_self _ _)).1
    have hyh : y < h := (hl (x, y) (List.mem_cons_self _ _)).2
    have hlrest : ∀ xy ∈ rest, xy.1 < w ∧ xy.2 < h :=
      fun xy hxy => hl xy (List.mem_cons_of_mem _ hxy)
    simp only [scanAux]
    split_ifs with hguard
    · set s : Point := ⟨(x : ℤ), (y : ℤ)⟩ with hs
      have hsidx : pIdx w s = y * w + x := pIdx_natCast w x y
      have hsgood : goodPoint mask w h s := by
        refine ⟨Int.ofNat_nonneg x, ?_, Int.ofNat_nonneg y, ?_, ?_⟩
        · show ((x:ℕ):ℤ) < ((w:ℕ):ℤ)
          exact_mod_cast hxw
        · show ((y:ℕ):ℤ) < ((h:ℕ):ℤ)
          exact_mod_cast hyh
        · rw [hsidx]
          exact hguard.1
      have HM := floodLoop_master mask w h s visited (w*h + 1) [s] []
        ((y * w + x) :: visited)
        (fun i hi => List.mem_cons_of_mem _ hi)
        (by
          intro q hq
          rw [List.nil_append] at hq
          rcases List.mem_singleton.mp hq with rfl
          exact hsgood)
        (by simp)
        (by
          intro q hq
          rw [List.nil_append] at hq
          rcases List.mem_singleton.mp hq with rfl
          rw [hsidx]
          exact List.mem_cons_self _ _)
        (fun p hp => absurd hp (List.not_mem_nil p))
        (by
          intro q hq
          rw [List.nil_append] at hq
          rcases List.mem_singleton.mp hq with rfl
          exact Relation.ReflTransGen.refl)
        (by
          intro i hi
          rcases List.mem_cons.mp hi with rfl | hiv
          · exact Or.inr ⟨s, by simp, hsidx⟩
          · exact Or.inl hiv)
        (by
          intro q hq
          rw [List.nil_append] at hq
          rcases List.mem_singleton.mp hq with rfl
          rw [hsidx]
          exact hguard.2)
        (by
          have hcard := Finset.card_filter_le (Finset.range (w*h))
            (fun i => i ∉ ((y*w + x) :: visited))
          rw [Finset.card_range] at hcard
          show unmarked w h ((y*w + x) :: visited) + 1 ≤ w*h + 1
          unfold unmarked
          omega)
      obtain ⟨HM1, HM2, HM3, HM4, HM5, HM6, HM7, HM8, HM9⟩ := HM
      have hsB : s ∈ (floodLoop mask w h (w*h + 1) [s] ((y*w + x) :: visited) []).1 :=
        HM3 s (by simp)
      have hBclosed : ∀ p ∈ (floodLoop mask w h (w*h + 1) [s] ((y*w + x) :: visited) []).1,
          ∀ q, goodPoint mask w h q → adjacent p q →
            q ∈ (floodLoop mask w h (w*h + 1) [s] ((y*w + x) :: visited) []).1 := by
        intro p hp q hqg hadj
        have hqV := HM5 p hp q hqg hadj
        rcases HM7 _ hqV with hqvis | ⟨r, hrB, hri⟩
        · exfalso
          obtain ⟨b', hb', r', hr', hr'i⟩ := hI2a _ hqvis
          have hr'good : goodPoint mask w h r' := (hI1 b' hb').2.2.1 r' hr'
          have hre : r' = q := good_pIdx_inj mask w h r' q hr'good hqg hr'i
          subst hre
          have hpb' : p ∈ b' :=
            (hI1 b' hb').2.2.2.1 r' hr' p (HM1 p hp) (adjacent_symm _ _ hadj)
          exact HM8 p hp (hI2b b' hb' p hpb')
        · have hre : r = q := good_pIdx_inj mask w h r q (HM1 r hrB) hqg hri
          subst hre
          exact hrB
      have hBcomp : isComponent mask w h
          (floodLoop mask w h (w*h + 1) [s] ((y*w + x) :: visited) []).1 := by
        refine ⟨?_, HM2, HM1, hBclosed, ?_⟩
        · intro hc
          rw [hc] at hsB
          exact List.not_mem_nil s hsB
        · intro p hp q hq
          exact Relation.ReflTransGen.trans
            (reach_symm mask w h s p hsgood (HM6 p hp)) (HM6 q hq)
      have hI1' : ∀ b ∈ acc ++ [(floodLoop mask w h (w*h + 1) [s] ((y*w + x) :: visited) []).1],
          isComponent mask w h b := by
        intro b hb
        rcases List.mem_append.mp hb with hb' | hb'
        · exact hI1 b hb'
        · rcases List.mem_singleton.mp hb' with rfl
          exact hBcomp
      have hI2a' : ∀ i ∈ (floodLoop mask w h (w*h + 1) [s] ((y*w + x) :: visited) []).2,
          ∃ b ∈ acc ++ [(floodLoop mask w h (w*h + 1) [s] ((y*w + x) :: visited) []).1],
            ∃ r ∈ b, pIdx w r = i := by
        intro i hi
        rcases HM7 i hi with hiv | ⟨r, hrB, hri⟩
        · obtain ⟨b, hb, r, hr, hri⟩ := hI2a _ hiv
          exact ⟨b, List.mem_append_left _ hb, r, hr, hri⟩
        · exact ⟨_, List.mem_append_right _ (List.mem_singleton.mpr rfl), r, hrB, hri⟩
      have hI2b' : ∀ b ∈ acc ++ [(floodLoop mask w h (w*h + 1) [s] ((y*w + x) :: visited) []).1],
          ∀ r ∈ b, pIdx w r ∈ (floodLoop mask w h (w*h + 1) [s] ((y*w + x) :: visited) []).2 := by
        intro b hb r hr
        rcases List.mem_append.mp hb with hb' | hb'
        · exact HM9 _ (List.mem_cons_of_mem _ (hI2b b hb' r hr))
        · rcases List.mem_singleton.mp hb' with rfl
          exact HM4 r hr
      have hI3' : List.Pairwise (fun b₁ b₂ => ∀ p ∈ b₁, p ∉ b₂)
          (acc ++ [(floodLoop mask w h (w*h + 1) [s] ((y*w + x) :: visited) []).1]) := by
        rw [List.pairwise_append]
        refine ⟨hI3, List.pairwise_singleton _ _, ?_⟩
        intro b hb B' hB'
        rcases List.mem_singleton.mp hB' with rfl
        intro p hpb hpB
        exact HM8 p hpB (hI2b b hb p hpb)
      have IHrec := ih (floodLoop mask w h (w*h + 1) [s] ((y*w + x) :: visited) []).2
        (acc ++ [(floodLoop mask w h (w*h + 1) [s] ((y*w + x) :: visited) []).1])
        hlrest hI1' hI2a' hI2b' hI3'
      refine ⟨IHrec.1, ?_, ?_⟩
      · intro b hb
        exact IHrec.2.1 b (List.mem_append_left _ hb)
      · intro xy hxy hgood
        rcases List.mem_cons.mp hxy with heq | hxy'
        · rw [heq]
          exact ⟨(floodLoop mask w h (w*h + 1) [s] ((y*w + x) :: visited) []).1,
            IHrec.2.1 _ (List.mem_append_right _ (List.mem_singleton.mpr rfl)), hsB⟩
        · exact IHrec.2.2 xy hxy' hgood
    · have IHrec := ih visited acc hlrest hI1 hI2a hI2b hI3
      refine ⟨IHrec.1, IHrec.2.1, ?_⟩
      intro xy hxy hgood
      rcases List.mem_cons.mp hxy with heq | hxy'
      · rw [heq] at hgood ⊢
        have hmask : mask (y*w + x) = true := by
          have hm := hgood.2.2.2.2
          rwa [pIdx_natCast] at hm
        have hvis : (y*w + x) ∈ visited := by
          by_contra hnv
          exact hguard ⟨hmask, hnv⟩
        obtain ⟨b, hb, r, hr, hri⟩ := hI2a _ hvis
        have hrgood : goodPoint mask w h r := (hI1 b hb).2.2.1 r hr
        have hre : r = ⟨((x:ℕ):ℤ), ((y:ℕ):ℤ)⟩ :=
          good_pIdx_inj mask w h r _ hrgood hgood (by rw [hri, pIdx_natCast])
        subst hre
        exact ⟨b, IHrec.2.1 b hb, hr⟩
      · exact IHrec.2.2 xy hxy' hgood

lemma findBlobs_components (mask : ℕ → Bool) (w h : ℕ) :
    ∀ b ∈ findBlobs mask w h, isComponent mask w h b := by
  intro b hb
  exact (scanAux_master mask w h (scanPairs w h) [] []
    (fun xy hxy => scanPairs_mem w h xy.1 xy.2 hxy)
    (fun b hb => (List.not_mem_nil b hb).elim)
    (fun i hi => (List.not_mem_nil i hi).elim)
    (fun b hb => (List.not_mem_nil b hb).elim)
    List.Pairwise.nil).1 b hb

lemma findBlobs_complete (mask : ℕ → Bool) (w h : ℕ) (p : Point)
    (hp : goodPoint mask w h p) : ∃ b ∈ findBlobs mask w h, p ∈ b := by
  have hxb : p.x.toNat < w := by
    have h1 := hp.1
    have h2 := hp.2.1
    omega
  have hyb : p.y.toNat < h := by
    have h1 := hp.2.2.1
    have h2 := hp.2.2.2.1
    omega
  have hpair : (p.x.toNat, p.y.toNat) ∈ scanPairs w h := scanPairs_mem_intro w h _ _ hxb hyb
  have hpeq : (⟨((p.x.toNat : ℕ) : ℤ), ((p.y.toNat : ℕ) : ℤ)⟩ : Point) = p := by
    refine point_ext _ p ?_ ?_
    · have h1 := hp.1
      show ((p.x.toNat : ℕ) : ℤ) = p.x
      omega
    · have h1 := hp.2.2.1
      show ((p.y.toNat : ℕ) : ℤ) = p.y
      omega
  have hres := (scanAux_master mask w h (scanPairs w h) [] []
    (fun xy hxy => scanPairs_mem w h xy.1 xy.2 hxy)
    (fun b hb => (List.not_mem_nil b hb).elim)
    (fun i hi => (List.not_mem_nil i hi).elim)
    (fun b hb => (List.not_mem_nil b hb).elim)
    List.Pairwise.nil).2.2 (p.x.toNat, p.y.toNat) hpair
  rw [hpeq] at hres
  exact hres hp

lemma length_eq_of_nodup_iff (b c : List Point) (hb : b.Nodup) (hc : c.Nodup)
    (hiff : ∀ p, p ∈ b ↔ p ∈ c) : b.length = c.length := by
  have h1 : b.length ≤ c.length :=
    (List.subperm_of_subset hb (fun p hp => (hiff p).mp hp)).length_le
  have h2 : c.length ≤ b.length :=
    (List.subperm_of_subset hc (fun p hp => (hiff p).mpr hp)).length_le
  omega

/-- C3: every blob produced by the flood-fill scan is a maximal 8-connected
foreground component (nonempty, duplicate-free, all points in-bounds
foreground, closed under adjacent foreground neighbours, and mutually
reachable through foreground pixels); the output shape list is exactly the
blobs surviving the strict > 20 filter mapped to shapes; and an 8-connected
foreground component appears, as a set of pixels, among the surviving blobs
exactly when its pixel count is strictly greater than 20. -/
theorem C3_noise_filter (gray : ℕ → ℤ) (w h : ℕ) (c : List Point) :
    (detectFromGray gray w h).shapes
        = (contoursOf (binaryOf gray w h) w h).map mkShape
    ∧ (∀ b ∈ findBlobs (binaryOf gray w h) w h,
        isComponent (binaryOf gray w h) w h b)
    ∧ (c ∈ contoursOf (binaryOf gray w h) w h
        ↔ c ∈ findBlobs (binaryOf gray w h) w h ∧ 20 < c.length)
    ∧ (isComponent (binaryOf gray w h) w h c →
        ((∃ b ∈ contoursOf (binaryOf gray w h) w h, ∀ p, p ∈ b ↔ p ∈ c)
          ↔ 20 < c.length)) := by
  refine ⟨rfl, findBlobs_components _ w h, mem_contoursOf _ w h c, ?_⟩
  intro hc
  constructor
  · rintro ⟨b, hb, hbiff⟩
    obtain ⟨hbf, hblen⟩ := (mem_contoursOf _ w h b).mp hb
    have hbcomp := findBlobs_components _ w h b hbf
    have hlen := length_eq_of_nodup_iff b c hbcomp.2.1 hc.2.1 hbiff
    omega
  · intro hlen
    have hpos : 0 < c.length := by omega
    obtain ⟨p, hp⟩ := List.exists_mem_of_ne_nil c (List.length_pos.mp hpos)
    have hpg : goodPoint (binaryOf gray w h) w h p := hc.2.2.1 p hp
    obtain ⟨b, hbf, hpb⟩ := findBlobs_complete (binaryOf gray w h) w h p hpg
    have hbcomp := findBlobs_components _ w h b hbf
    have hbiff : ∀ q, q ∈ b ↔ q ∈ c :=
      component_ext (binaryOf gray w h) w h b c hbcomp hc p hpb hp
    have hleneq := length_eq_of_nodup_iff b c hbcomp.2.1 hc.2.1 hbiff
    exact ⟨b, (mem_contoursOf _ w h b).mpr ⟨hbf, by omega⟩, hbiff⟩

/-- Witness for C3: on the 6x6 test image the single 24-pixel blob is an
8-connected foreground component with more than 20 pixels, and a blob with
exactly its pixel set appears among the surviving contours. -/
theorem C3_witness :
    (∃ b ∈ contoursOf (binaryOf gC3 6 6) 6 6, ∀ p, p ∈ b ↔ p ∈ bC3)
    ∧ 20 < bC3.length := by
  have hfind : bC3 ∈ findBlobs (binaryOf gC3 6 6) 6 6 := by
    rw [binaryC3]
    decide
  have hcomp : isComponent (binaryOf gC3 6 6) 6 6 bC3 :=
    findBlobs_components _ 6 6 bC3 hfind
  have hlen : 20 < bC3.length := by decide
  exact ⟨((C3_noise_filter gC3 6 6 bC3).2.2.2 hcomp).mpr hlen, hlen⟩

end ShapeDet
